import Mathlib

/-!
Verification development for the `skelly` crate: a bone-tree (skeleton)
data model with forward kinematics and three inverse-kinematics solvers
(FABRIK, FRIK, Rotor).

The crate is generic over a `RealField` scalar `T`.  We embed it over the
exact field `ℚ`.  The only non-algebraic operation the code uses is the
square root (inside vector norms and inside nalgebra's
`UnitQuaternion::rotation_between`); we model it by `sqrtQ`, which is the
exact square root on every rational that is a square in `ℚ` and returns 0
elsewhere.  All concrete evaluations in this file are chosen so that every
square root taken is a square of a rational, hence exact; the universally
quantified theorems below never depend on the value of a square root.

nalgebra's `Point3`, `Vector3` and `Translation3` all carry three scalars;
we collapse them into one type `V3` (point-minus-point, translation applied
to a point, etc. become the evident vector operations).
-/

/-- Three rational coordinates: models nalgebra's `Point3`, `Vector3` and
`Translation3<T>` (collapsed into one type). -/
structure V3 where
  x : ℚ
  y : ℚ
  z : ℚ
deriving DecidableEq, Repr

instance : Zero V3 := ⟨⟨0, 0, 0⟩⟩
instance : Add V3 := ⟨fun a b => ⟨a.x + b.x, a.y + b.y, a.z + b.z⟩⟩
instance : Sub V3 := ⟨fun a b => ⟨a.x - b.x, a.y - b.y, a.z - b.z⟩⟩
instance : Neg V3 := ⟨fun a => ⟨-a.x, -a.y, -a.z⟩⟩
instance : SMul ℚ V3 := ⟨fun c a => ⟨c * a.x, c * a.y, c * a.z⟩⟩

@[ext] theorem V3.ext (a b : V3) (hx : a.x = b.x) (hy : a.y = b.y)
    (hz : a.z = b.z) : a = b := by
  cases a; cases b; simp_all

@[simp] theorem V3.zero_x : (0 : V3).x = 0 := rfl

@[simp] theorem V3.zero_y : (0 : V3).y = 0 := rfl

@[simp] theorem V3.zero_z : (0 : V3).z = 0 := rfl

@[simp] theorem V3.add_x (a b : V3) : (a + b).x = a.x + b.x := rfl

@[simp] theorem V3.add_y (a b : V3) : (a + b).y = a.y + b.y := rfl

@[simp] theorem V3.add_z (a b : V3) : (a + b).z = a.z + b.z := rfl

@[simp] theorem V3.sub_x (a b : V3) : (a - b).x = a.x - b.x := rfl

@[simp] theorem V3.sub_y (a b : V3) : (a - b).y = a.y - b.y := rfl

@[simp] theorem V3.sub_z (a b : V3) : (a - b).z = a.z - b.z := rfl

@[simp] theorem V3.neg_x (a : V3) : (-a).x = -a.x := rfl

@[simp] theorem V3.neg_y (a : V3) : (-a).y = -a.y := rfl

@[simp] theorem V3.neg_z (a : V3) : (-a).z = -a.z := rfl

@[simp] theorem V3.smul_x (c : ℚ) (a : V3) : (c • a).x = c * a.x := rfl

@[simp] theorem V3.smul_y (c : ℚ) (a : V3) : (c • a).y = c * a.y := rfl

@[simp] theorem V3.smul_z (c : ℚ) (a : V3) : (c • a).z = c * a.z := rfl

/-- Squared Euclidean norm (`magnitude_squared` / `norm_squared`). -/
def normSqV (a : V3) : ℚ := a.x * a.x + a.y * a.y + a.z * a.z

/-- Dot product. -/
def dotV (a b : V3) : ℚ := a.x * b.x + a.y * b.y + a.z * b.z

/-- Cross product. -/
def crossV (a b : V3) : V3 :=
  ⟨a.y * b.z - a.z * b.y, a.z * b.x - a.x * b.z, a.x * b.y - a.y * b.x⟩

/-- Binary search step for the integer square root, with explicit fuel so
that the recursion is structural (kernel-reducible); the interval
invariant is `lo² ≤ n < hi²`. -/
def natSqrtGo : Nat → Nat → Nat → Nat → Nat
  | 0, _, lo, _ => lo
  | Nat.succ f, n, lo, hi =>
    if hi ≤ lo + 1 then lo
    else
      let mid := (lo + hi) / 2
      if mid * mid ≤ n then natSqrtGo f n mid hi else natSqrtGo f n lo mid

/-- Floor integer square root (a structurally recursive stand-in for
`Nat.sqrt`, which is defined by well-founded recursion and does not
reduce in the kernel). -/
def natSqrt (n : Nat) : Nat := natSqrtGo (n + 2) n 0 (n + 1)

/-- Model of the `RealField` square root over `ℚ`: exact on every rational
that is the square of a rational (a nonnegative rational in lowest terms is
a square iff its numerator and denominator are perfect squares), and 0
elsewhere.  Every concrete run in this file only takes square roots of
rational squares, where this is the true square root. -/
def sqrtQ (q : ℚ) : ℚ :=
  if 0 ≤ q ∧ natSqrt q.num.toNat * natSqrt q.num.toNat = q.num.toNat
      ∧ natSqrt q.den * natSqrt q.den = q.den then
    (natSqrt q.num.toNat : ℚ) / (natSqrt q.den : ℚ)
  else 0

/-- Euclidean distance (`metric_distance` in nalgebra: norm of the
difference). -/
def distQ (a b : V3) : ℚ := sqrtQ (normSqV (a - b))

/-- Quaternion with rational components; models nalgebra's
`UnitQuaternion<T>` (rotations).  The unit-norm invariant of the Rust type
is carried as a hypothesis (`qnormSq q = 1`) where a proof needs it. -/
structure Quat where
  w : ℚ
  x : ℚ
  y : ℚ
  z : ℚ
deriving DecidableEq, Repr

instance : One Quat := ⟨⟨1, 0, 0, 0⟩⟩

/-- Hamilton product. -/
def qmul (a b : Quat) : Quat :=
  ⟨a.w * b.w - a.x * b.x - a.y * b.y - a.z * b.z,
   a.w * b.x + a.x * b.w + a.y * b.z - a.z * b.y,
   a.w * b.y - a.x * b.z + a.y * b.w + a.z * b.x,
   a.w * b.z + a.x * b.y - a.y * b.x + a.z * b.w⟩

instance : Mul Quat := ⟨qmul⟩

/-- Conjugate; `UnitQuaternion::inverse` is the conjugate. -/
def qconj (a : Quat) : Quat := ⟨a.w, -a.x, -a.y, -a.z⟩

/-- Squared quaternion norm. -/
def qnormSq (a : Quat) : ℚ := a.w * a.w + a.x * a.x + a.y * a.y + a.z * a.z

/-- Rotation action of a (unit) quaternion on a vector: the vector part of
`q * v * conj q`. -/
def qrot (q : Quat) (v : V3) : V3 :=
  let p := qmul (qmul q ⟨0, v.x, v.y, v.z⟩) (qconj q)
  ⟨p.x, p.y, p.z⟩

theorem qmul_assoc (a b c : Quat) : (a * b) * c = a * (b * c) := by
  show qmul (qmul a b) c = qmul a (qmul b c)
  simp only [qmul]
  simp only [Quat.mk.injEq]
  refine ⟨?_, ?_, ?_, ?_⟩ <;> ring

theorem qmul_one (a : Quat) : a * 1 = a := by
  show qmul a ⟨1, 0, 0, 0⟩ = a
  simp only [qmul]
  cases a
  simp only [Quat.mk.injEq]
  refine ⟨?_, ?_, ?_, ?_⟩ <;> ring

theorem one_qmul (a : Quat) : 1 * a = a := by
  show qmul ⟨1, 0, 0, 0⟩ a = a
  simp only [qmul]
  cases a
  simp only [Quat.mk.injEq]
  refine ⟨?_, ?_, ?_, ?_⟩ <;> ring

theorem qmul_qconj_self (a : Quat) : a * qconj a = ⟨qnormSq a, 0, 0, 0⟩ := by
  show qmul a (qconj a) = _
  simp only [qmul, qconj, qnormSq]
  simp only [Quat.mk.injEq]
  refine ⟨?_, ?_, ?_, ?_⟩ <;> ring

/-- Cancellation bracket used by the FRIK sibling-compensation proof:
appending `r` to a bone and prepending `conj r` to a child cancels in the
composed global rotation, for unit `r`. -/
theorem qmul_sandwich (x b c r : Quat) (h : qnormSq r = 1) :
    (x * (b * r)) * (qconj r * c) = (x * b) * c := by
  have hr : r * qconj r = 1 := by
    rw [qmul_qconj_self, h]; rfl
  calc (x * (b * r)) * (qconj r * c)
      = x * ((b * r) * (qconj r * c)) := qmul_assoc ..
    _ = x * (b * (r * (qconj r * c))) := by rw [qmul_assoc b r]
    _ = x * (b * ((r * qconj r) * c)) := by rw [qmul_assoc r]
    _ = x * (b * c) := by rw [hr, one_qmul]
    _ = (x * b) * c := (qmul_assoc ..).symm

theorem qconj_qmul (a b : Quat) : qconj (a * b) = qconj b * qconj a := by
  show qconj (qmul a b) = qmul (qconj b) (qconj a)
  simp only [qmul, qconj]
  simp only [Quat.mk.injEq]
  refine ⟨?_, ?_, ?_, ?_⟩ <;> ring

theorem qrot_one (v : V3) : qrot 1 v = v := by
  show qrot ⟨1, 0, 0, 0⟩ v = v
  simp only [qrot, qmul, qconj]
  cases v
  simp only [V3.mk.injEq]
  refine ⟨?_, ?_, ?_⟩ <;> ring

theorem qrot_qmul (a b : Quat) (v : V3) : qrot (a * b) v = qrot a (qrot b v) := by
  show qrot (qmul a b) v = qrot a (qrot b v)
  simp only [qrot, qmul, qconj]
  simp only [V3.mk.injEq]
  refine ⟨?_, ?_, ?_⟩ <;> ring

theorem qrot_add (q : Quat) (v w : V3) : qrot q (v + w) = qrot q v + qrot q w := by
  show qrot q ⟨v.x + w.x, v.y + w.y, v.z + w.z⟩ = _
  simp only [qrot, qmul, qconj]
  show _ = V3.mk _ _ _
  simp only [V3.mk.injEq]
  refine ⟨?_, ?_, ?_⟩ <;> ring

/-- Rigid transform: rotation plus translation; models nalgebra's
`Isometry3<T>`. -/
structure Iso where
  rot : Quat
  trans : V3
deriving DecidableEq, Repr

instance : One Iso := ⟨⟨1, 0⟩⟩
instance : Inhabited Quat := ⟨1⟩
instance : Inhabited Iso := ⟨1⟩

/-- Isometry composition `(r1,t1) * (r2,t2) = (r1 r2, t1 + r1 · t2)`. -/
def isoMul (a b : Iso) : Iso := ⟨a.rot * b.rot, a.trans + qrot a.rot b.trans⟩

instance : Mul Iso := ⟨isoMul⟩

/-- Apply an isometry to a point. -/
def isoApply (a : Iso) (v : V3) : V3 := qrot a.rot v + a.trans

/-- Isometry inverse `(r,t)⁻¹ = (conj r, -(conj r · t))` (nalgebra's
`Isometry::inverse`, with the unit-quaternion inverse being the
conjugate). -/
def isoInv (a : Iso) : Iso := ⟨qconj a.rot, -(qrot (qconj a.rot) a.trans)⟩

theorem v3_add_assoc (a b c : V3) : (a + b) + c = a + (b + c) := by
  ext <;> simp <;> ring

theorem isoMul_assoc (a b c : Iso) : (a * b) * c = a * (b * c) := by
  show isoMul (isoMul a b) c = isoMul a (isoMul b c)
  simp only [isoMul]
  refine congrArg₂ Iso.mk (qmul_assoc ..) ?_
  rw [qrot_qmul, qrot_add, v3_add_assoc]

theorem isoMul_rot (a b : Iso) : (a * b).rot = a.rot * b.rot := rfl

theorem one_isoMul (a : Iso) : 1 * a = a := by
  show isoMul ⟨1, 0⟩ a = a
  simp only [isoMul]
  refine congrArg₂ Iso.mk (one_qmul a.rot) ?_
  rw [qrot_one]
  show (0 : V3) + a.trans = a.trans
  ext <;> simp

/-- Shortest-arc rotation between two vectors; models nalgebra's
`UnitQuaternion::rotation_between` exactly (an exact field has
`default_epsilon = 0`): a zero vector on either side yields the identity;
parallel vectors (zero cross product) yield the identity when the dot
product is nonnegative and `None` when the vectors are anti-parallel;
otherwise the axis-angle quaternion
`(cos (θ/2), sin (θ/2) · axis)` with `cos θ` the dot product of the
normalized inputs and axis the normalized cross product. -/
def rotationBetween (a b : V3) : Option Quat :=
  let na2 := normSqV a
  let nb2 := normSqV b
  if na2 = 0 ∨ nb2 = 0 then some 1
  else
    let a' := (sqrtQ na2)⁻¹ • a
    let b' := (sqrtQ nb2)⁻¹ • b
    let d := dotV a' b'
    let c := crossV a' b'
    if c = (0 : V3) then
      if d < 0 then none else some 1
    else
      let k := sqrtQ ((1 - d) / 2) / sqrtQ (normSqV c)
      some ⟨sqrtQ ((1 + d) / 2), k * c.x, k * c.y, k * c.z⟩

/-!
Data model of `src/skelly.rs`.

A `Bone` stores a local isometry and an optional parent index; a `Skelly`
is the ordered bone list.  The `userdata` payload `D` carries no solver
semantics (per the crate docs it only tags bones for rendering), so it is
omitted from the embedding; `add_root_with`/`attach_with` therefore
coincide with `add_root`/`attach`.  A `Posture` is the ordered list of
per-bone local isometries.  Rust panics (failed `assert!`s, out-of-bounds
indexing) are modelled by `Option`-valued functions returning `none`.
-/

/-- One bone: local isometry plus optional parent index
(`skelly.rs::Bone`, userdata omitted). -/
structure Bone where
  iso : Iso
  parent : Option Nat
deriving DecidableEq, Repr

instance : Inhabited Bone := ⟨⟨1, none⟩⟩

/-- The skeleton: ordered list of bones (`skelly.rs::Skelly`). -/
structure Skelly where
  bones : List Bone
deriving DecidableEq, Repr

/-- `Skelly::len`. -/
def Skelly.len (s : Skelly) : Nat := s.bones.length

/-- `Skelly::is_empty`. -/
def Skelly.isEmptyS (s : Skelly) : Bool := s.bones.isEmpty

/-- `Skelly::get_parent` (callers in this file always pass an in-range
index; the Rust panic on an out-of-range index is handled at each call
site). -/
def Skelly.getParent (s : Skelly) (bone : Nat) : Option Nat :=
  (s.bones.getD bone default).parent

/-- `Skelly::add_root_with` (and `add_root`): push a bone with identity
rotation, translation `position`, no parent; returns the new skelly and
the returned bone id. -/
def Skelly.add_root_with (s : Skelly) (position : V3) : Skelly × Nat :=
  (⟨s.bones ++ [⟨⟨1, position⟩, none⟩]⟩, s.bones.length)

/-- `Skelly::attach_with` (and `attach`): `assert!(parent < len)`, then
push a bone with identity rotation, translation `relative`, parent
`parent`; returns the new skelly and the returned bone id (`none` models
the panic on an out-of-range parent). -/
def Skelly.attach_with (s : Skelly) (relative : V3) (parent : Nat) :
    Option (Skelly × Nat) :=
  if parent < s.bones.length then
    some (⟨s.bones ++ [⟨⟨1, relative⟩, some parent⟩]⟩, s.bones.length)
  else none

/-- `Skelly::iter_children`: scan the index sub-range `[parent, len)` for
bones whose parent equals `parent` (the source enumerates, skips the first
`parent` entries and filters). -/
def Skelly.iterChildren (s : Skelly) (parent : Nat) : List Nat :=
  ((List.range s.len).drop parent).filter
    (fun j => decide ((s.bones.getD j default).parent = some parent))

/-- Skellies reachable by any sequence of `new`, `add_root_with` /
`add_root` and successful `attach_with` / `attach` calls. -/
inductive Built : Skelly → Prop
  | new : Built ⟨[]⟩
  | root (s : Skelly) (pos : V3) (s' : Skelly) (i : Nat) :
      Built s → Skelly.add_root_with s pos = (s', i) → Built s'
  | attach (s : Skelly) (rel : V3) (par : Nat) (s' : Skelly) (i : Nat) :
      Built s → Skelly.attach_with s rel par = some (s', i) → Built s'

/-- Decidable form of the topological-order invariant: every parented bone
has its parent index strictly below its own index. -/
def skellyWF (s : Skelly) : Bool :=
  (List.range s.len).all (fun i =>
    match (s.bones.getD i default).parent with
    | some p => decide (p < i)
    | none => true)

theorem skellyWF_spec (s : Skelly) :
    skellyWF s = true ↔
      ∀ i, i < s.len → ∀ p, (s.bones.getD i default).parent = some p → p < i := by
  unfold skellyWF
  rw [List.all_eq_true]
  constructor
  · intro h i hi p hp
    have := h i (List.mem_range.mpr hi)
    rw [hp] at this
    exact of_decide_eq_true this
  · intro h i hi
    rcases hm : (s.bones.getD i default).parent with _ | p
    · rfl
    · exact decide_eq_true (h i (List.mem_range.mp hi) p hm)

/-!
Forward kinematics.  Both `Skelly::write_globals` and
`Posture::write_globals` run the same single forward sweep over
`(local isometry, parent)` pairs, writing only the first
`min (number of entries) (buffer length)` output slots:
`global[i] = global[parent] * local[i]` for parented bones and
`global[i] = skelly_global * local[i]` for roots.  (The `debug_assert!`
on `parent < index` is debug-only and not part of release semantics.)
-/

instance : Inhabited (Iso × Option Nat) := ⟨(1, none)⟩

/-- One update of the FK sweep at index `i`. -/
def fkUpd (g0 : Iso) (entries : List (Iso × Option Nat)) (acc : List Iso)
    (i : Nat) : List Iso :=
  match (entries.getD i default).2 with
  | some p => acc.set i ((acc.getD p 1) * (entries.getD i default).1)
  | none => acc.set i (g0 * (entries.getD i default).1)

/-- The FK sweep shared by `Skelly::write_globals` and
`Posture::write_globals`: process indices `0, 1, …` in order, stopping at
`min (entries.length) (buffer length)` (the sources iterate
`.take(globals.len())`). -/
def fkStep (g0 : Iso) (entries : List (Iso × Option Nat)) (buf : List Iso) :
    List Iso :=
  (List.range (min entries.length buf.length)).foldl (fkUpd g0 entries) buf

/-- The `(local, parent)` pairs read by `Skelly::write_globals`: each
bone's own isometry. -/
def skellyEntries (s : Skelly) : List (Iso × Option Nat) :=
  s.bones.map (fun b => (b.iso, b.parent))

/-- The `(local, parent)` pairs read by `Posture::write_globals`: posture
joints zipped with the skelly's parent links. -/
def postureEntries (s : Skelly) (joints : List Iso) : List (Iso × Option Nat) :=
  joints.zip (s.bones.map (fun b => b.parent))

/-- `Skelly::write_globals(skelly_global, globals)`. -/
def Skelly.write_globals (s : Skelly) (skellyGlobal : Iso) (globals : List Iso) :
    List Iso :=
  fkStep skellyGlobal (skellyEntries s) globals

/-- `Posture::write_globals(skelly, skelly_global, globals)`:
`assert_eq!(joints.len, skelly.len)` (the "Posture is not compatible"
panic is the `none` case), then the same sweep reading locals from the
posture. -/
def Posture.write_globals (joints : List Iso) (s : Skelly) (skellyGlobal : Iso)
    (globals : List Iso) : Option (List Iso) :=
  if joints.length = s.len then
    some (fkStep skellyGlobal (postureEntries s joints) globals)
  else none

/-- Fuel-indexed composition of the local isometries along the root-to-`i`
path; the fuel only needs to exceed `i` because parent indices strictly
decrease (an in-fuel parent reference that does not decrease is treated as
absent, matching the well-founded reading).  `pathIso` below fixes the
fuel at `i + 1`. -/
def pathGo (entries : List (Iso × Option Nat)) : Nat → Nat → Iso
  | 0, i => (entries.getD i default).1
  | Nat.succ f, i =>
    match (entries.getD i default).2 with
    | some p =>
      if p < i then pathGo entries f p * (entries.getD i default).1
      else (entries.getD i default).1
    | none => (entries.getD i default).1

/-- Composition of the local transforms along the root-to-`i` path:
`local[root] * … * local[parent i] * local[i]`. -/
def pathIso (entries : List (Iso × Option Nat)) (i : Nat) : Iso :=
  pathGo entries (i + 1) i

theorem pathGo_fuel (entries : List (Iso × Option Nat)) :
    ∀ i f₁ f₂, i < f₁ → i < f₂ → pathGo entries f₁ i = pathGo entries f₂ i := by
  intro i
  induction i using Nat.strong_induction_on with
  | _ i ih =>
    intro f₁ f₂ h₁ h₂
    match f₁, h₁ with
    | Nat.succ g₁, h₁ =>
      match f₂, h₂ with
      | Nat.succ g₂, h₂ =>
        show pathGo entries (Nat.succ g₁) i = pathGo entries (Nat.succ g₂) i
        unfold pathGo
        rcases hp : (entries.getD i default).2 with _ | p
        · rfl
        · by_cases hlt : p < i
          · simp only [hlt, if_true]
            have hg₁ : p < g₁ := lt_of_lt_of_le hlt (Nat.lt_succ_iff.mp h₁)
            have hg₂ : p < g₂ := lt_of_lt_of_le hlt (Nat.lt_succ_iff.mp h₂)
            rw [ih p hlt g₁ g₂ hg₁ hg₂]
          · simp only [hlt, if_false]

theorem pathGo_succ (entries : List (Iso × Option Nat)) (f i : Nat) :
    pathGo entries (Nat.succ f) i =
      match (entries.getD i default).2 with
      | some p =>
        if p < i then pathGo entries f p * (entries.getD i default).1
        else (entries.getD i default).1
      | none => (entries.getD i default).1 := rfl

theorem pathIso_parent (entries : List (Iso × Option Nat)) (i p : Nat)
    (hp : (entries.getD i default).2 = some p) (hlt : p < i) :
    pathIso entries i = pathIso entries p * (entries.getD i default).1 := by
  have h1 : pathIso entries i = pathGo entries i p * (entries.getD i default).1 := by
    show pathGo entries (Nat.succ i) i = _
    rw [pathGo_succ, hp]
    simp only [hlt, if_true]
  rw [h1, pathGo_fuel entries p i (p + 1) hlt (Nat.lt_succ_self p)]
  rfl

theorem pathIso_root (entries : List (Iso × Option Nat)) (i : Nat)
    (hp : (entries.getD i default).2 = none) :
    pathIso entries i = (entries.getD i default).1 := by
  unfold pathIso
  show pathGo entries (Nat.succ i) i = _
  unfold pathGo
  rw [hp]

theorem getD_set_self {α : Type} (l : List α) (i : Nat) (a d : α)
    (h : i < l.length) : (l.set i a).getD i d = a := by
  induction l generalizing i with
  | nil => exact absurd h (by simp)
  | cons x xs ih =>
    cases i with
    | zero => rfl
    | succ j => exact ih j (Nat.lt_of_succ_lt_succ h)

theorem getD_set_ne {α : Type} (l : List α) (i j : Nat) (a d : α)
    (h : i ≠ j) : (l.set i a).getD j d = l.getD j d := by
  induction l generalizing i j with
  | nil => rfl
  | cons x xs ih =>
    cases i with
    | zero =>
      cases j with
      | zero => exact absurd rfl h
      | succ j' => rfl
    | succ i' =>
      cases j with
      | zero => rfl
      | succ j' => exact ih i' j' (fun hc => h (by rw [hc]))

theorem fkUpd_length (g0 : Iso) (entries : List (Iso × Option Nat))
    (acc : List Iso) (i : Nat) : (fkUpd g0 entries acc i).length = acc.length := by
  unfold fkUpd
  rcases (entries.getD i default).2 with _ | p <;> simp

theorem fkFold_length (g0 : Iso) (entries : List (Iso × Option Nat)) :
    ∀ (ks : List Nat) (buf : List Iso),
      (ks.foldl (fkUpd g0 entries) buf).length = buf.length := by
  intro ks
  induction ks with
  | nil => intro buf; rfl
  | cons k ks ih =>
    intro buf
    rw [List.foldl_cons, ih, fkUpd_length]

theorem fkUpd_getD_ne (g0 : Iso) (entries : List (Iso × Option Nat))
    (acc : List Iso) (i j : Nat) (h : i ≠ j) :
    (fkUpd g0 entries acc i).getD j 1 = acc.getD j 1 := by
  unfold fkUpd
  rcases (entries.getD i default).2 with _ | p <;> exact getD_set_ne _ _ _ _ _ h

theorem fkFold_getD_of_not_mem (g0 : Iso) (entries : List (Iso × Option Nat)) :
    ∀ (ks : List Nat) (buf : List Iso) (j : Nat), j ∉ ks →
      (ks.foldl (fkUpd g0 entries) buf).getD j 1 = buf.getD j 1 := by
  intro ks
  induction ks with
  | nil => intro buf j _; rfl
  | cons k ks ih =>
    intro buf j hj
    have hne : k ≠ j := by
      intro hc
      exact hj (by rw [← hc]; exact List.mem_cons_self k ks)
    rw [List.foldl_cons, ih _ j (fun hc => hj (List.mem_cons_of_mem _ hc)),
      fkUpd_getD_ne _ _ _ _ _ hne]

theorem fkUpd_root (g0 : Iso) (entries : List (Iso × Option Nat))
    (acc : List Iso) (i : Nat) (hp : (entries.getD i default).2 = none) :
    fkUpd g0 entries acc i = acc.set i (g0 * (entries.getD i default).1) := by
  unfold fkUpd
  rw [hp]

theorem fkUpd_parent (g0 : Iso) (entries : List (Iso × Option Nat))
    (acc : List Iso) (i p : Nat) (hp : (entries.getD i default).2 = some p) :
    fkUpd g0 entries acc i = acc.set i (acc.getD p 1 * (entries.getD i default).1) := by
  unfold fkUpd
  rw [hp]

/-- Core correctness of the FK fold: after sweeping indices `0, …, k-1`
(with the topological invariant on that prefix), slot `i < k` holds the
skelly-global transform composed with the root-to-`i` path product. -/
theorem fkFold_spec (g0 : Iso) (entries : List (Iso × Option Nat))
    (hwf : ∀ i p, i < entries.length → (entries.getD i default).2 = some p → p < i) :
    ∀ (k : Nat) (buf : List Iso), k ≤ entries.length → entries.length ≤ buf.length →
      ∀ i, i < k →
        ((List.range k).foldl (fkUpd g0 entries) buf).getD i 1 = g0 * pathIso entries i := by
  intro k
  induction k with
  | zero => intro buf _ _ i hi; exact absurd hi (Nat.not_lt_zero i)
  | succ k ih =>
    intro buf hk hb i hi
    rw [List.range_succ, List.foldl_append, List.foldl_cons, List.foldl_nil]
    have hout : ((List.range k).foldl (fkUpd g0 entries) buf).length = buf.length :=
      fkFold_length g0 entries _ buf
    rcases Nat.lt_or_ge i k with hik | hge
    · rw [fkUpd_getD_ne _ _ _ _ _ (Nat.ne_of_gt hik)]
      exact ih buf (Nat.le_of_succ_le hk) hb i hik
    · have hik : i = k := Nat.le_antisymm (Nat.lt_succ_iff.mp hi) hge
      subst hik
      have hkl : i < ((List.range i).foldl (fkUpd g0 entries) buf).length := by
        rw [hout]; exact lt_of_lt_of_le hk hb
      rcases hp : (entries.getD i default).2 with _ | p
      · rw [fkUpd_root g0 entries _ i hp, getD_set_self _ _ _ _ hkl,
          pathIso_root entries i hp]
      · have hpk : p < i := hwf i p (lt_of_lt_of_le (Nat.lt_succ_self i) hk) hp
        rw [fkUpd_parent g0 entries _ i p hp, getD_set_self _ _ _ _ hkl,
          ih buf (Nat.le_of_succ_le hk) hb p hpk,
          pathIso_parent entries i p hp hpk, isoMul_assoc]

/-!
Posture mutators used by the solvers (`src/skelly.rs`, `Posture`):
`append_rotation(bone, q)` right-multiplies the joint rotation
(`joints[bone].rotation *= q`), keeping the translation;
`get_orientation` / `set_orientation` read and write the rotation
component only.  `Posture::rotate`, used by the fabrik/rotor sources, is
not under `src/`; modelled from the spec: "append_rotation(bone, q)
(right-multiplies, i.e. rotates about the bone's own local origin)" — it
coincides with `appendRotation`.  A posture is its joint list.
-/

/-- `Posture::append_rotation` (also `Posture::rotate` of the
fabrik/rotor sources, modelled from the spec as the right-multiply). -/
def appendRotation (joints : List Iso) (bone : Nat) (q : Quat) : List Iso :=
  joints.set bone ⟨(joints.getD bone 1).rot * q, (joints.getD bone 1).trans⟩

/-- `Posture::get_orientation`. -/
def getOrientation (joints : List Iso) (bone : Nat) : Quat :=
  (joints.getD bone 1).rot

/-- `Posture::set_orientation`. -/
def setOrientation (joints : List Iso) (bone : Nat) (q : Quat) : List Iso :=
  joints.set bone ⟨q, (joints.getD bone 1).trans⟩

/-- `Posture::is_compatible`: length equality only. -/
def isCompatible (joints : List Iso) (s : Skelly) : Bool :=
  decide (joints.length = s.len)

/-- `write_globals` of a posture over a buffer of exactly `skelly.len`
identity isometries: this is the `self.globals.resize_with(skelly.len(),
Isometry3::identity)` + `write_globals` prelude every solver step runs.
(The reused scratch buffer could only leak stale values into the sweep
when the parent-before-child invariant is broken, where the Rust behavior
is unspecified; we model a fresh identity buffer.) -/
def fkGlobals (s : Skelly) (joints : List Iso) : List Iso :=
  fkStep 1 (postureEntries s joints) (List.replicate s.len 1)

/-!
The merge queue (`enque` / `deque` in `src/ik/frik.rs`; `src/ik/rotor.rs`
contains a field-identical copy for its `(tip, goal)` payload and
`src/ik/fabrik.rs` a copy with a single translation payload).

The Rust queue is a `Vec` kept sorted by bone index (ascending), pushed
and popped at the high end.  We model the `Vec` with its high end as the
list head, so the list is sorted descending, `Vec::pop` is head
consumption, and the binary-search insertion becomes insertion at the head
of the run of equal bone indices.  (Rust's `binary_search_by` may pick any
position inside a run of equal keys; `deque` drains and averages the whole
run commutatively, so the position inside the run is unobservable.)
-/

/-- Queue item with a pair payload: FRIK's `(effector, target)`, and
identically rotor's `(tip, goal)`. -/
structure QItemP where
  bone : Nat
  effector : V3
  target : V3
deriving DecidableEq, Repr

/-- FRIK/rotor `enque`: sorted insert (descending list, head = highest
bone index). -/
def enqueP (queue : List QItemP) (bone : Nat) (effector target : V3) :
    List QItemP :=
  match queue with
  | [] => [⟨bone, effector, target⟩]
  | x :: xs =>
    if x.bone ≤ bone then ⟨bone, effector, target⟩ :: x :: xs
    else x :: enqueP xs bone effector target

/-- Drain the run of items sharing bone index `b`, accumulating component
sums and the count (the `while let Some(item) = queue.pop()` loop of
`deque`). -/
def dequeAux (b : Nat) : V3 → V3 → ℚ → List QItemP → V3 × V3 × ℚ × List QItemP
  | esum, tsum, count, [] => (esum, tsum, count, [])
  | esum, tsum, count, y :: ys =>
    if y.bone = b then dequeAux b (esum + y.effector) (tsum + y.target) (count + 1) ys
    else (esum, tsum, count, y :: ys)

/-- FRIK/rotor `deque`: pop the top item, merge the adjacent items with
the same bone index by arithmetic mean, and return the remaining queue. -/
def dequeP (queue : List QItemP) : Option (Nat × V3 × V3 × List QItemP) :=
  match queue with
  | [] => none
  | x :: xs =>
    let r := dequeAux x.bone x.effector x.target 1 xs
    some (x.bone, r.2.2.1⁻¹ • r.1, r.2.2.1⁻¹ • r.2.1, r.2.2.2)

/-- Queue item with a single translation payload (`fabrik.rs`). -/
structure QItemT where
  bone : Nat
  translation : V3
deriving DecidableEq, Repr

/-- FABRIK `enque`. -/
def enqueT (queue : List QItemT) (bone : Nat) (translation : V3) : List QItemT :=
  match queue with
  | [] => [⟨bone, translation⟩]
  | x :: xs =>
    if x.bone ≤ bone then ⟨bone, translation⟩ :: x :: xs
    else x :: enqueT xs bone translation

/-- Drain-and-sum loop of FABRIK's `deque`. -/
def dequeTAux (b : Nat) : V3 → ℚ → List QItemT → V3 × ℚ × List QItemT
  | tsum, count, [] => (tsum, count, [])
  | tsum, count, y :: ys =>
    if y.bone = b then dequeTAux b (tsum + y.translation) (count + 1) ys
    else (tsum, count, y :: ys)

/-- FABRIK `deque` (the `dbg!` in the source only prints). -/
def dequeT (queue : List QItemT) : Option (Nat × V3 × List QItemT) :=
  match queue with
  | [] => none
  | x :: xs =>
    let r := dequeTAux x.bone x.translation 1 xs
    some (x.bone, r.2.1⁻¹ • r.1, r.2.2)

/-- The queue invariant: bone indices are descending from the head (the
`Vec` is ascending and popped at the end), so items with equal bone
indices are adjacent. -/
def SortedQ (queue : List QItemP) : Prop :=
  queue.Pairwise (fun a b => b.bone ≤ a.bone)

instance (queue : List QItemP) : Decidable (SortedQ queue) := by
  unfold SortedQ
  infer_instance

/-!
IK layer.  `src/ik.rs` defines the `StepResult` enum used by the FRIK
solver.  The fabrik/rotor sources return a `StepResult<T>` STRUCT with an
`error` field and a `Status` field and use the constructors
`StepResult::solved` / `StepResult::unsolved` and `StepResult::reduce`;
those declarations are not under `src/` and are modelled from the spec
below.
-/

/-- `ik.rs::StepResult` (the enum used by FRIK). -/
inductive StepResult where
  | Solved
  | Unsolved
  | Infeasible
deriving DecidableEq, Repr

/-- Modelled from the spec: the status vocabulary
`Status ∈ {Solved, Unsolved, Infeasible}` shared by the fabrik/rotor
sources, whose `Status` declaration is not under `src/`. -/
inductive Status where
  | Solved
  | Unsolved
  | Infeasible
deriving DecidableEq, Repr

/-- Modelled from the spec: the `StepResult<T>` struct of the
fabrik/rotor sources (a status together with the measured error), not
under `src/`. -/
structure StepResultT where
  error : ℚ
  status : Status
deriving DecidableEq, Repr

/-- Modelled from the spec: `StepResult::solved(error)`. -/
def StepResultT.solved (e : ℚ) : StepResultT := ⟨e, Status.Solved⟩

/-- Modelled from the spec: `StepResult::unsolved(error)`. -/
def StepResultT.unsolved (e : ℚ) : StepResultT := ⟨e, Status.Unsolved⟩

/-- Modelled from the spec: `StepResult::reduce` combines two step
results.  The spec fixes only the status vocabulary ("`Solved` means
aggregate positional error across all goals fell below epsilon";
"`Infeasible` … is not currently raised by any solver"), so we model it
as summing the errors and staying `Solved` only when both sides are. -/
def StepResultT.reduce (a b : StepResultT) : StepResultT :=
  ⟨a.error + b.error,
   if a.status = Status.Solved ∧ b.status = Status.Solved then Status.Solved
   else Status.Unsolved⟩

/-- `IkGoal` (identical private struct in all three solver sources). -/
structure IkGoal where
  bone : Nat
  position : Option V3
  orientation : Option Quat
deriving DecidableEq, Repr

/-- Replace the `position` of the first goal whose bone index matches
(the `iter_mut().find(...)` / `skip_while(...).next()` arm of
`set_position_goal`). -/
def updateFirstPos : List IkGoal → Nat → V3 → List IkGoal
  | [], _, _ => []
  | g :: gs, bone, pos =>
    if g.bone = bone then { g with position := some pos } :: gs
    else g :: updateFirstPos gs bone pos

/-- Replace the `orientation` of the first goal whose bone index
matches. -/
def updateFirstOri : List IkGoal → Nat → Quat → List IkGoal
  | [], _, _ => []
  | g :: gs, bone, ori =>
    if g.bone = bone then { g with orientation := some ori } :: gs
    else g :: updateFirstOri gs bone ori

/-!
FRIK solver, `src/ik/frik.rs`.  The scratch `forward_queue` and `globals`
vectors are cleared/overwritten each step, so the solver state is
`epsilon`, `min_len` and `goals`.
-/

/-- `FrikSolver` persistent state. -/
structure FrikSolver where
  epsilon : ℚ
  min_len : Nat
  goals : List IkGoal
deriving DecidableEq, Repr

/-- `FrikSolver::new(epsilon)`. -/
def FrikSolver.new (epsilon : ℚ) : FrikSolver := ⟨epsilon, 0, []⟩

/-- `FrikSolver::set_position_goal`: overwrite the first goal with this
bone index, or push a new goal after updating
`min_len = min_len.min(bone + 1)`. -/
def FrikSolver.set_position_goal (s : FrikSolver) (bone : Nat) (position : V3) :
    FrikSolver :=
  if s.goals.any (fun g => g.bone == bone) then
    { s with goals := updateFirstPos s.goals bone position }
  else
    { s with
      min_len := Nat.min s.min_len (bone + 1),
      goals := s.goals ++ [⟨bone, some position, none⟩] }

/-- `FrikSolver::set_orientation_goal`. -/
def FrikSolver.set_orientation_goal (s : FrikSolver) (bone : Nat)
    (orientation : Quat) : FrikSolver :=
  if s.goals.any (fun g => g.bone == bone) then
    { s with goals := updateFirstOri s.goals bone orientation }
  else
    { s with
      min_len := Nat.min s.min_len (bone + 1),
      goals := s.goals ++ [⟨bone, none, some orientation⟩] }

/-- The "enque effectors" loop of `FrikSolver::solve_step`: for each
position goal, accumulate the distance from target to the goal bone's
global position into `total_error` and, when the goal bone has a parent,
enqueue `(effector, target)` at the parent. -/
def frikEnqueuePhase (goals : List IkGoal) (s : Skelly) (globals : List Iso) :
    List QItemP × ℚ :=
  goals.foldl
    (fun acc g =>
      match g.position with
      | none => acc
      | some pos =>
        let effector := (globals.getD g.bone 1).trans
        let err := distQ pos effector
        match s.getParent g.bone with
        | some par => (enqueP acc.1 par effector pos, acc.2 + err)
        | none => (acc.1, acc.2 + err))
    ([], 0)

/-- The rotation FRIK computes for a dequeued `(effector, target)` entry
at a bone with cached global `global`: shortest arc between effector and
target expressed in the bone's local frame, identity when
`rotation_between` returns `None`. -/
def frikRequiredRotation (global : Iso) (effector target : V3) : Quat :=
  (rotationBetween (isoApply (isoInv global) effector)
    (isoApply (isoInv global) target)).getD 1

/-- Body of one iteration of FRIK's "traverse from effectors to roots"
loop: append the required rotation at `bone`, prepend its inverse to the
orientation of every child of `bone`, and compute the entry to enqueue at
the parent (if any). -/
def frikProcess (s : Skelly) (global : Iso) (joints : List Iso) (bone : Nat)
    (effector target : V3) : List Iso × Option (Nat × V3 × V3) :=
  let oel := isoApply (isoInv global) effector
  let tl := isoApply (isoInv global) target
  let r := frikRequiredRotation global effector target
  let joints1 := appendRotation joints bone r
  let joints2 := (s.iterChildren bone).foldl
    (fun js c => setOrientation js c (qconj r * getOrientation js c)) joints1
  let nel := qrot r oel
  let ntl := tl - nel
  (joints2,
   match s.getParent bone with
   | some par => some (par, global.trans, isoApply global ntl)
   | none => none)

/-- FRIK's upward traversal.  The fuel only bounds the iteration count;
`skelly.len` suffices because the dequeued bone indices strictly decrease
(each enqueue targets the parent, which has a smaller index under the
topological invariant).  `none` models divergence of the Rust loop, which
can only happen when that invariant is broken. -/
def frikLoop (s : Skelly) (globals : List Iso) :
    Nat → List QItemP → List Iso → Option (List Iso)
  | 0, q, joints =>
    match dequeP q with
    | none => some joints
    | some _ => none
  | Nat.succ f, q, joints =>
    match dequeP q with
    | none => some joints
    | some (bone, effector, target, rest) =>
      let pr := frikProcess s (globals.getD bone 1) joints bone effector target
      let q' := match pr.2 with
        | some (par, e, t) => enqueP rest par e t
        | none => rest
      frikLoop s globals f q' pr.1

/-- `FrikSolver::solve_step`.  `none` models a panic: the
`assert!(posture.is_compatible(skelly))`, the
`assert!(min_len <= skelly.len())`, or the out-of-bounds indexing
`globals[goal.bone]` / `get_parent(goal.bone)` for a position goal whose
bone index is out of range (also fuel exhaustion of the upward loop, see
`frikLoop`).  On success it returns the status and the updated posture. -/
def frikSolveStep (s : FrikSolver) (sk : Skelly) (joints : List Iso) :
    Option (StepResult × List Iso) :=
  if isCompatible joints sk = true ∧ s.min_len ≤ sk.len
      ∧ ∀ g ∈ s.goals, g.position.isSome → g.bone < sk.len then
    let globals := fkGlobals sk joints
    let eq := frikEnqueuePhase s.goals sk globals
    if eq.2 < s.epsilon then some (StepResult.Solved, joints)
    else (frikLoop sk globals sk.len eq.1 joints).map
      (fun j => (StepResult.Unsolved, j))
  else none

/-- The aggregate error FRIK measures at the start of a step: sum over
position goals of the distance between the target and the goal bone's
global position. -/
def frikStartError (goals : List IkGoal) (sk : Skelly) (joints : List Iso) : ℚ :=
  (frikEnqueuePhase goals sk (fkGlobals sk joints)).2

/-!
FABRIK solver, `src/ik/fabrik.rs`.  Its source targets the older crate
API: `posture.rotate` (the spec's `append_rotation`),
`skelly.write_globals_for_posture(posture, globals)` (the FK sweep of the
posture with an identity world root, modelled by `fkGlobals`), and
`posture.get_joint(bone)` (the bone's local joint isometry).
-/

/-- `FabrikSolver` persistent state (the scratch `forward_queue`,
`backward_queue` and `globals` are cleared each step). -/
structure FabrikSolver where
  epsilon : ℚ
  min_len : Nat
  goals : List IkGoal
deriving DecidableEq, Repr

/-- `FabrikSolver::new(epsilon)`. -/
def FabrikSolver.new (epsilon : ℚ) : FabrikSolver := ⟨epsilon, 0, []⟩

/-- `FabrikSolver::set_position_goal` (same structure as FRIK's, with the
`skip_while(..).next()` search). -/
def FabrikSolver.set_position_goal (s : FabrikSolver) (bone : Nat)
    (position : V3) : FabrikSolver :=
  if s.goals.any (fun g => g.bone == bone) then
    { s with goals := updateFirstPos s.goals bone position }
  else
    { s with
      min_len := Nat.min s.min_len (bone + 1),
      goals := s.goals ++ [⟨bone, some position, none⟩] }

/-- Modelled from nalgebra:
`UnitQuaternion::from_euler_angles(T::two_pi(), 0, 0)` — the rotation by
`2π` about the x axis — is the quaternion
`(cos π, sin π, 0, 0) = (-1, 0, 0, 0)`.  This is FABRIK's
`unwrap_or_else` fallback when `rotation_between` returns `None`. -/
def fabrikFallback : Quat := ⟨-1, 0, 0, 0⟩

/-- The rotation FABRIK computes for a dequeued translation request:
shortest arc between the old and new local offset vectors, with
`fabrikFallback` substituted when the vectors are anti-parallel. -/
def fabrikRequiredRotation (oldLocal targetLocal : V3) : Quat :=
  (rotationBetween oldLocal targetLocal).getD fabrikFallback

/-- Multiply the rotation of slot `i` of a cached globals buffer on the
right by `q` (nalgebra's `Isometry3 * UnitQuaternion` keeps the
translation), modelling `self.globals[i] *= q`. -/
def globalsMulRot (globals : List Iso) (i : Nat) (q : Quat) : List Iso :=
  globals.set i ⟨(globals.getD i 1).rot * q, (globals.getD i 1).trans⟩

/-- FABRIK's upward traversal ("Traverse from effectors to roots").  The
state carries the joints and the incrementally updated cached globals.
For a dequeued request at a parented bone: rotate the bone by the inverse
of the required rotation and the parent by the rotation itself, update
both cached globals, and enqueue the residual translation at the parent.
For a root bone the entire branch is commented out in the source, so
nothing happens.  Fuel as in `frikLoop`. -/
def fabrikLoop (s : Skelly) :
    Nat → List QItemT → List Iso → List Iso → Option (List Iso × List Iso)
  | 0, q, globals, joints =>
    match dequeT q with
    | none => some (globals, joints)
    | some _ => none
  | Nat.succ f, q, globals, joints =>
    match dequeT q with
    | none => some (globals, joints)
    | some (bone, t, rest) =>
      match s.getParent bone with
      | some par =>
        let oldPos := (globals.getD bone 1).trans
        let oldLocal := oldPos - (globals.getD par 1).trans
        let targetLocal := oldLocal + t
        let rr := fabrikRequiredRotation oldLocal targetLocal
        let joints' := appendRotation (appendRotation joints bone (qconj rr)) par rr
        let globals' := globalsMulRot (globalsMulRot globals bone (qconj rr)) par rr
        let newLocal := qrot rr oldLocal
        fabrikLoop s f (enqueT rest par (targetLocal - newLocal)) globals' joints'
      | none => fabrikLoop s f rest globals joints

/-- The error FABRIK sums at the END of a step: distance from each
position goal's target to the goal bone's LOCAL joint translation
(`posture.get_joint(goal.bone).translation`), not its global position. -/
def fabrikLocalEndError (goals : List IkGoal) (joints : List Iso) : ℚ :=
  goals.foldl
    (fun acc g =>
      match g.position with
      | some pos => acc + distQ pos (joints.getD g.bone 1).trans
      | none => acc)
    0

/-- `FabrikSolver::solve_step`.  `none` models the asserts
(`skelly.len == posture.len`, `min_len <= skelly.len`), out-of-range
position-goal bones, or fuel exhaustion.  The backward (root-to-leaf)
queue is never enqueued — every `enque(&mut self.backward_queue, ..)` in
the source is commented out — so the second loop never runs and is
omitted. -/
def fabrikSolveStep (s : FabrikSolver) (sk : Skelly) (joints : List Iso) :
    Option (StepResultT × List Iso) :=
  if joints.length = sk.len ∧ s.min_len ≤ sk.len
      ∧ ∀ g ∈ s.goals, g.position.isSome → g.bone < sk.len then
    let globals := fkGlobals sk joints
    let q0 := s.goals.foldl
      (fun q g =>
        match g.position with
        | some pos => enqueT q g.bone (pos - (globals.getD g.bone 1).trans)
        | none => q)
      []
    match fabrikLoop sk sk.len q0 globals joints with
    | none => none
    | some (_, joints') =>
      let err := fabrikLocalEndError s.goals joints'
      some (if err < s.epsilon then StepResultT.solved err
            else StepResultT.unsolved err, joints')
  else none

/-!
Rotor solver, `src/ik/rotor.rs`.  Same older API as fabrik; its `enque` /
`deque` are copies of FRIK's with the pair payload named `(tip, goal)`,
so `enqueP` / `dequeP` model them as well.
-/

/-- `RotorSolver` persistent state. -/
structure RotorSolver where
  epsilon : ℚ
  min_len : Nat
  goals : List IkGoal
deriving DecidableEq, Repr

/-- `RotorSolver::new(epsilon)`. -/
def RotorSolver.new (epsilon : ℚ) : RotorSolver := ⟨epsilon, 0, []⟩

/-- `RotorSolver::set_position_goal`. -/
def RotorSolver.set_position_goal (s : RotorSolver) (bone : Nat)
    (position : V3) : RotorSolver :=
  if s.goals.any (fun g => g.bone == bone) then
    { s with goals := updateFirstPos s.goals bone position }
  else
    { s with
      min_len := Nat.min s.min_len (bone + 1),
      goals := s.goals ++ [⟨bone, some position, none⟩] }

/-- Rotor's goal-enqueue phase: every position goal whose bone has a
parent is enqueued as `(parent, current tip, target)` — the per-goal
error check that would skip close-enough goals is commented out in the
source, so no error test is made here. -/
def rotorEnqueuePhase (goals : List IkGoal) (s : Skelly) (globals : List Iso) :
    List QItemP :=
  goals.foldl
    (fun q g =>
      match g.position with
      | none => q
      | some pos =>
        let tip := (globals.getD g.bone 1).trans
        match s.getParent g.bone with
        | some par => enqueP q par tip pos
        | none => q)
    []

/-- Rotor's upward traversal: at each dequeued `(bone, tip, goal)`,
express tip and goal in the bone's translation-only local frame, skip the
bone when either local vector's squared magnitude is below epsilon,
otherwise rotate the bone by the shortest arc (identity fallback), and
either record a solved goal (error below epsilon) or propagate the
updated tip to the parent.  Carries the accumulated `total` result. -/
def rotorLoop (s : Skelly) (eps : ℚ) (globals : List Iso) :
    Nat → List QItemP → List Iso → StepResultT → Option (List Iso × StepResultT)
  | 0, q, joints, total =>
    match dequeP q with
    | none => some (joints, total)
    | some _ => none
  | Nat.succ f, q, joints, total =>
    match dequeP q with
    | none => some (joints, total)
    | some (bone, tip, goal, rest) =>
      let trans := (globals.getD bone 1).trans
      let tipL := tip - trans
      let goalL := goal - trans
      if normSqV tipL < eps then rotorLoop s eps globals f rest joints total
      else if normSqV goalL < eps then rotorLoop s eps globals f rest joints total
      else
        let rot := (rotationBetween tipL goalL).getD 1
        let joints' := appendRotation joints bone rot
        let tipL' := qrot rot tipL
        let err := distQ tipL' goalL
        if err < eps then
          rotorLoop s eps globals f rest joints' (total.reduce (StepResultT.solved err))
        else
          match s.getParent bone with
          | some par =>
            rotorLoop s eps globals f (enqueP rest par (trans + tipL') goal) joints' total
          | none => rotorLoop s eps globals f rest joints' total

/-- `RotorSolver::solve_step`.  The accumulated result starts as
`{error: 0, status: Solved}` exactly as in the source; there is no
up-front total-error check (it is commented out), so every position goal
with a parented bone is enqueued and processed unconditionally. -/
def rotorSolveStep (s : RotorSolver) (sk : Skelly) (joints : List Iso) :
    Option (StepResultT × List Iso) :=
  if joints.length = sk.len ∧ s.min_len ≤ sk.len
      ∧ ∀ g ∈ s.goals, g.position.isSome → g.bone < sk.len then
    let globals := fkGlobals sk joints
    let q0 := rotorEnqueuePhase s.goals sk globals
    (rotorLoop sk s.epsilon globals sk.len q0 joints ⟨0, Status.Solved⟩).map
      (fun r => (r.2, r.1))
  else none

/-!
Claim theorems.
-/

/-- C9.  Topological-order invariant: for every skelly built by any
sequence of `add_root`/`add_root_with` and `attach`/`attach_with` calls,
every bone with a parent has parent index strictly smaller than its own
index; and `attach` always returns an index strictly greater than the
parent argument it was given. -/
theorem c9_topological_order :
    (∀ s, Built s → ∀ (i : Nat) (b : Bone) (p : Nat),
        s.bones[i]? = some b → b.parent = some p → p < i)
    ∧ (∀ (s : Skelly) (rel : V3) (par : Nat) (out : Skelly × Nat),
        Skelly.attach_with s rel par = some out → par < out.2) := by
  constructor
  · intro s hs
    induction hs with
    | new =>
      intro i b p hb hparent
      simp at hb
    | root s pos s' j hs hadd ih =>
      unfold Skelly.add_root_with at hadd
      obtain ⟨hs', _⟩ := Prod.mk.injEq .. ▸ hadd
      intro i b p hb hp
      rw [← hs'] at hb
      rcases Nat.lt_trichotomy i s.bones.length with hlt | heq | hgt
      · rw [List.getElem?_append_left hlt] at hb
        exact ih i b p hb hp
      · subst heq
        rw [List.getElem?_concat_length] at hb
        obtain rfl : (⟨⟨1, pos⟩, none⟩ : Bone) = b := Option.some.inj hb
        exact absurd hp (by simp)
      · rw [List.getElem?_eq_none_iff.mpr (by simp; omega)] at hb
        exact absurd hb (by simp)
    | attach s rel par s' j hs hatt ih =>
      unfold Skelly.attach_with at hatt
      by_cases hpar : par < s.bones.length
      · rw [if_pos hpar] at hatt
        obtain ⟨hs', _⟩ := Prod.mk.injEq .. ▸ Option.some.inj hatt
        intro i b p hb hp
        rw [← hs'] at hb
        rcases Nat.lt_trichotomy i s.bones.length with hlt | heq | hgt
        · rw [List.getElem?_append_left hlt] at hb
          exact ih i b p hb hp
        · subst heq
          rw [List.getElem?_concat_length] at hb
          obtain rfl : (⟨⟨1, rel⟩, some par⟩ : Bone) = b := Option.some.inj hb
          obtain rfl : par = p := Option.some.inj hp
          exact hpar
        · rw [List.getElem?_eq_none_iff.mpr (by simp; omega)] at hb
          exact absurd hb (by simp)
      · rw [if_neg hpar] at hatt
        exact absurd hatt (by simp)
  · intro s rel par out hatt
    unfold Skelly.attach_with at hatt
    by_cases hpar : par < s.bones.length
    · rw [if_pos hpar] at hatt
      obtain ⟨_, h2⟩ := Prod.mk.injEq .. ▸ Option.some.inj hatt
      rw [← h2]
      exact hpar
    · rw [if_neg hpar] at hatt
      exact absurd hatt (by simp)

def c9sk1 : Skelly := ⟨[⟨⟨1, ⟨0, 0, 0⟩⟩, none⟩]⟩

def c9sk2 : Skelly := ⟨[⟨⟨1, ⟨0, 0, 0⟩⟩, none⟩, ⟨⟨1, ⟨1, 0, 0⟩⟩, some 0⟩]⟩

def c9sk3 : Skelly :=
  ⟨[⟨⟨1, ⟨0, 0, 0⟩⟩, none⟩, ⟨⟨1, ⟨1, 0, 0⟩⟩, some 0⟩, ⟨⟨1, ⟨0, 1, 0⟩⟩, some 1⟩]⟩

theorem c9_witness : (1 : Nat) < 2 ∧ (0 : Nat) < 1 :=
  have hb1 : Built c9sk1 :=
    Built.root ⟨[]⟩ ⟨0, 0, 0⟩ c9sk1 0 Built.new rfl
  have hb2 : Built c9sk2 :=
    Built.attach c9sk1 ⟨1, 0, 0⟩ 0 c9sk2 1 hb1 (by decide)
  have hb3 : Built c9sk3 :=
    Built.attach c9sk2 ⟨0, 1, 0⟩ 1 c9sk3 2 hb2 (by decide)
  ⟨c9_topological_order.1 c9sk3 hb3 2 ⟨⟨1, ⟨0, 1, 0⟩⟩, some 1⟩ 1 (by decide) rfl,
   c9_topological_order.2 c9sk1 ⟨1, 0, 0⟩ 0 (c9sk2, 1) (by decide)⟩

theorem fkStep_length (g0 : Iso) (entries : List (Iso × Option Nat))
    (buf : List Iso) : (fkStep g0 entries buf).length = buf.length :=
  fkFold_length g0 entries _ buf

theorem fkStep_suffix (g0 : Iso) (entries : List (Iso × Option Nat))
    (buf : List Iso) (j : Nat) (h : min entries.length buf.length ≤ j) :
    (fkStep g0 entries buf).getD j 1 = buf.getD j 1 :=
  fkFold_getD_of_not_mem g0 entries _ buf j
    (fun hm => absurd (List.mem_range.mp hm) (by omega))

theorem skellyEntries_length (s : Skelly) : (skellyEntries s).length = s.len := by
  simp [skellyEntries, Skelly.len]

theorem postureEntries_length (s : Skelly) (joints : List Iso)
    (h : joints.length = s.len) : (postureEntries s joints).length = s.len := by
  simp [postureEntries, Skelly.len] at *
  omega

/-- C10.  Buffer truncation at the public interface: `write_globals`
computes and writes only the first `min (bone count) (buffer length)`
entries — a shorter buffer is accepted without panicking (the functions
stay defined), entries of a longer buffer beyond the bone count are left
unchanged, and the buffer length is preserved; `Posture::write_globals`
succeeds exactly when the posture length equals the skelly length,
imposing no constraint on the buffer length. -/
theorem c10_truncation :
    (∀ (s : Skelly) (g0 : Iso) (buf : List Iso),
        (s.write_globals g0 buf).length = buf.length
        ∧ ∀ j : Nat, min s.len buf.length ≤ j →
            (s.write_globals g0 buf).getD j 1 = buf.getD j 1)
    ∧ (∀ (joints : List Iso) (s : Skelly) (g0 : Iso) (buf : List Iso),
        (Posture.write_globals joints s g0 buf).isSome ↔ joints.length = s.len)
    ∧ (∀ (joints : List Iso) (s : Skelly) (g0 : Iso) (buf out : List Iso),
        Posture.write_globals joints s g0 buf = some out →
          out.length = buf.length
          ∧ ∀ j : Nat, min s.len buf.length ≤ j → out.getD j 1 = buf.getD j 1) := by
  refine ⟨fun s g0 buf => ⟨fkStep_length .., fun j hj => ?_⟩, fun joints s g0 buf => ?_, ?_⟩
  · exact fkStep_suffix g0 (skellyEntries s) buf j (by rw [skellyEntries_length]; exact hj)
  · unfold Posture.write_globals
    by_cases h : joints.length = s.len
    · rw [if_pos h]
      simp [h]
    · rw [if_neg h]
      simp [h]
  · intro joints s g0 buf out hw
    unfold Posture.write_globals at hw
    by_cases h : joints.length = s.len
    · rw [if_pos h] at hw
      obtain rfl : fkStep g0 (postureEntries s joints) buf = out := Option.some.inj hw
      refine ⟨fkStep_length .., fun j hj => ?_⟩
      exact fkStep_suffix g0 (postureEntries s joints) buf j
        (by rw [postureEntries_length s joints h]; exact hj)
    · rw [if_neg h] at hw
      exact absurd hw (by simp)

def c10buf : List Iso := [⟨1, ⟨9, 9, 9⟩⟩, ⟨1, ⟨8, 8, 8⟩⟩, ⟨1, ⟨7, 7, 7⟩⟩]

theorem c10_witness :
    (Skelly.write_globals c9sk2 1 c10buf).getD 2 1 = c10buf.getD 2 1
    ∧ ((Posture.write_globals [⟨1, ⟨0, 0, 0⟩⟩] c9sk2 1 c10buf).isSome ↔
        (1 : Nat) = c9sk2.len) :=
  ⟨(c10_truncation.1 c9sk2 1 c10buf).2 2 (by decide),
   c10_truncation.2.1 [⟨1, ⟨0, 0, 0⟩⟩] c9sk2 1 c10buf⟩

theorem getD_map {α β : Type} (f : α → β) (l : List α) (i : Nat) (d : α) :
    (l.map f).getD i (f d) = f (l.getD i d) := by
  induction l generalizing i with
  | nil => rfl
  | cons x xs ih =>
    cases i with
    | zero => rfl
    | succ j => exact ih j

theorem zip_getD {α β : Type} [Inhabited α] [Inhabited β]
    [Inhabited (α × β)]
    (A : List α) (B : List β) (i : Nat) (h1 : i < A.length) (h2 : i < B.length) :
    (A.zip B).getD i default = (A.getD i default, B.getD i default) := by
  induction A generalizing B i with
  | nil => exact absurd h1 (by simp)
  | cons a as ih =>
    cases B with
    | nil => exact absurd h2 (by simp)
    | cons b bs =>
      cases i with
      | zero => rfl
      | succ j =>
        exact ih bs j (Nat.lt_of_succ_lt_succ h1) (Nat.lt_of_succ_lt_succ h2)

theorem skellyEntries_getD (s : Skelly) (i : Nat) :
    (skellyEntries s).getD i default =
      ((s.bones.getD i default).iso, (s.bones.getD i default).parent) := by
  unfold skellyEntries
  exact getD_map (fun b => (b.iso, b.parent)) s.bones i default

theorem postureEntries_getD (s : Skelly) (joints : List Iso) (i : Nat)
    (h1 : i < joints.length) (h2 : i < s.len) :
    (postureEntries s joints).getD i default =
      (joints.getD i 1, (s.bones.getD i default).parent) := by
  unfold postureEntries
  have hb : i < (s.bones.map (fun b => b.parent)).length := by
    simpa [Skelly.len] using h2
  rw [zip_getD joints (s.bones.map (fun b => b.parent)) i h1 hb]
  have hm : ((s.bones.map (fun b => b.parent)).getD i (default : Option Nat)) =
      (s.bones.getD i default).parent :=
    getD_map (fun b : Bone => b.parent) s.bones i default
  rw [hm]
  rfl

theorem fkStep_spec_full (g0 : Iso) (entries : List (Iso × Option Nat))
    (buf : List Iso)
    (hwf : ∀ i p, i < entries.length → (entries.getD i default).2 = some p → p < i)
    (hlen : entries.length ≤ buf.length) :
    ∀ i, i < entries.length →
      (fkStep g0 entries buf).getD i 1 = g0 * pathIso entries i := by
  unfold fkStep
  rw [Nat.min_eq_left hlen]
  exact fkFold_spec g0 entries hwf entries.length buf le_rfl hlen

/-- C1.  Forward-kinematics correctness: for every skelly whose bones
satisfy parent-index < own-index, every posture of equal length and every
buffer of at least the bone count, after `write_globals(skelly_global,
globals)` each entry `globals[i]` equals `skelly_global` composed with the
local transforms along the root-to-`i` path (for `Skelly::write_globals`
reading the skelly's own locals, and for `Posture::write_globals` reading
the posture's), computed in one forward sweep; equivalently
`globals[i] = globals[parent i] * local[i]` for parented bones and
`globals[i] = skelly_global * local[i]` for roots. -/
theorem c1_write_globals_fk (s : Skelly) (joints : List Iso) (g0 : Iso)
    (buf : List Iso) (hwf : skellyWF s = true) (hj : joints.length = s.len)
    (hb : s.len ≤ buf.length) :
    (∀ i, i < s.len →
        (s.write_globals g0 buf).getD i 1 = g0 * pathIso (skellyEntries s) i)
    ∧ (Posture.write_globals joints s g0 buf =
        some (fkStep g0 (postureEntries s joints) buf))
    ∧ (∀ i, i < s.len →
        (fkStep g0 (postureEntries s joints) buf).getD i 1 =
          g0 * pathIso (postureEntries s joints) i)
    ∧ (∀ i p, i < s.len → (s.bones.getD i default).parent = some p →
        (s.write_globals g0 buf).getD i 1 =
          (s.write_globals g0 buf).getD p 1 * (s.bones.getD i default).iso)
    ∧ (∀ i, i < s.len → (s.bones.getD i default).parent = none →
        (s.write_globals g0 buf).getD i 1 = g0 * (s.bones.getD i default).iso) := by
  have hwf' := (skellyWF_spec s).mp hwf
  have hwfS : ∀ i p, i < (skellyEntries s).length →
      ((skellyEntries s).getD i default).2 = some p → p < i := by
    intro i p hi hp
    rw [skellyEntries_getD] at hp
    exact hwf' i (by rwa [skellyEntries_length] at hi) p hp
  have hwfP : ∀ i p, i < (postureEntries s joints).length →
      ((postureEntries s joints).getD i default).2 = some p → p < i := by
    intro i p hi hp
    rw [postureEntries_length s joints hj] at hi
    rw [postureEntries_getD s joints i (by omega) hi] at hp
    exact hwf' i hi p hp
  have hlenS : (skellyEntries s).length ≤ buf.length := by
    rw [skellyEntries_length]; exact hb
  have hlenP : (postureEntries s joints).length ≤ buf.length := by
    rw [postureEntries_length s joints hj]; exact hb
  have hmainS : ∀ i, i < s.len →
      (s.write_globals g0 buf).getD i 1 = g0 * pathIso (skellyEntries s) i := by
    intro i hi
    exact fkStep_spec_full g0 (skellyEntries s) buf hwfS hlenS i
      (by rwa [skellyEntries_length])
  refine ⟨hmainS, ?_, ?_, ?_, ?_⟩
  · unfold Posture.write_globals
    rw [if_pos hj]
  · intro i hi
    exact fkStep_spec_full g0 (postureEntries s joints) buf hwfP hlenP i
      (by rwa [postureEntries_length s joints hj])
  · intro i p hi hp
    have hpi : p < i := hwf' i hi p hp
    have hpE : ((skellyEntries s).getD i default).2 = some p := by
      rw [skellyEntries_getD]; exact hp
    rw [hmainS i hi, hmainS p (lt_trans hpi hi),
      pathIso_parent (skellyEntries s) i p hpE hpi, ← isoMul_assoc]
    have : ((skellyEntries s).getD i default).1 = (s.bones.getD i default).iso := by
      rw [skellyEntries_getD]
    rw [this]
  · intro i hi hp
    have hpE : ((skellyEntries s).getD i default).2 = none := by
      rw [skellyEntries_getD]; exact hp
    rw [hmainS i hi, pathIso_root (skellyEntries s) i hpE]
    have : ((skellyEntries s).getD i default).1 = (s.bones.getD i default).iso := by
      rw [skellyEntries_getD]
    rw [this]

def c1sk : Skelly :=
  ⟨[⟨⟨1, ⟨1, 0, 0⟩⟩, none⟩, ⟨⟨1, ⟨0, 1, 0⟩⟩, some 0⟩, ⟨⟨1, ⟨0, 0, 1⟩⟩, some 1⟩]⟩

def c1joints : List Iso := [⟨1, ⟨1, 0, 0⟩⟩, ⟨1, ⟨0, 1, 0⟩⟩, ⟨1, ⟨0, 0, 1⟩⟩]

theorem c1_witness :
    (Skelly.write_globals c1sk 1 (List.replicate 3 1)).getD 2 1 =
      1 * pathIso (skellyEntries c1sk) 2
    ∧ (Skelly.write_globals c1sk 1 (List.replicate 3 1)).getD 2 1 =
      ⟨1, ⟨1, 1, 1⟩⟩ :=
  ⟨(c1_write_globals_fk c1sk c1joints 1 (List.replicate 3 1) (by decide)
      (by decide) (by decide)).1 2 (by decide),
   by with_unfolding_all rfl⟩

/-!
Shared concrete inputs: a two-bone chain (root at the origin with
identity rotation, one child at local offset `(1,0,0)`) and its initial
posture.
-/

def chainSk : Skelly := ⟨[⟨⟨1, ⟨0, 0, 0⟩⟩, none⟩, ⟨⟨1, ⟨1, 0, 0⟩⟩, some 0⟩]⟩

def chainJoints : List Iso := [⟨1, ⟨0, 0, 0⟩⟩, ⟨1, ⟨1, 0, 0⟩⟩]

/-- C7 (evaluation at the failing input).  The claim says `min_len` is at
least `bone + 1` after `set_position_goal(bone, p)`; the sources instead
compute `min_len = min_len.min(bone + 1)` starting from 0, so `min_len`
stays 0 in all three solvers (here after `set_position_goal(5, origin)`),
and a subsequent `solve_step` on a 1-bone tree passes the
`min_len <= skelly.len()` assert and panics on the out-of-bounds goal
index instead of failing fast. -/
theorem c7_min_len_eval :
    (FrikSolver.set_position_goal (FrikSolver.new 1) 5 ⟨0, 0, 0⟩).min_len = 0
    ∧ (FabrikSolver.set_position_goal (FabrikSolver.new 1) 5 ⟨0, 0, 0⟩).min_len = 0
    ∧ (RotorSolver.set_position_goal (RotorSolver.new 1) 5 ⟨0, 0, 0⟩).min_len = 0
    ∧ ¬ (5 + 1 ≤
        (FrikSolver.set_position_goal (FrikSolver.new 1) 5 ⟨0, 0, 0⟩).min_len)
    ∧ frikSolveStep (FrikSolver.set_position_goal (FrikSolver.new 1) 5 ⟨0, 0, 0⟩)
        ⟨[⟨⟨1, ⟨0, 0, 0⟩⟩, none⟩]⟩ [⟨1, ⟨0, 0, 0⟩⟩] = none := by
  refine ⟨rfl, rfl, rfl, by decide, ?_⟩
  with_unfolding_all rfl

/-- C5 (evaluation at the failing input).  When the old and new local
offsets are anti-parallel (`rotation_between` underflows and returns
`None`), FABRIK substitutes `from_euler_angles(two_pi, 0, 0)`, i.e. the
quaternion `(-1,0,0,0)`.  That quaternion is not the identity quaternion,
but as a ROTATION it is the identity: it moves no vector, so the
degenerate joint stalls instead of being perturbed, contrary to the
claim.  The full step on a two-bone chain with the goal directly behind
the root shows the stall: both joints only flip quaternion sign and the
goal bone's global position stays `(1,0,0)`. -/
theorem c5_fallback_acts_as_identity :
    rotationBetween ⟨1, 0, 0⟩ ⟨-1, 0, 0⟩ = none
    ∧ fabrikRequiredRotation ⟨1, 0, 0⟩ ⟨-1, 0, 0⟩ = fabrikFallback
    ∧ (∀ v : V3, qrot fabrikFallback v = v)
    ∧ fabrikSolveStep ⟨1/10, 0, [⟨1, some ⟨-1, 0, 0⟩, none⟩]⟩ chainSk chainJoints
        = some (⟨2, Status.Unsolved⟩,
            [⟨⟨-1, 0, 0, 0⟩, ⟨0, 0, 0⟩⟩, ⟨⟨-1, 0, 0, 0⟩, ⟨1, 0, 0⟩⟩])
    ∧ ((fkGlobals chainSk
          [⟨⟨-1, 0, 0, 0⟩, ⟨0, 0, 0⟩⟩, ⟨⟨-1, 0, 0, 0⟩, ⟨1, 0, 0⟩⟩]).getD 1 1).trans
        = ((fkGlobals chainSk chainJoints).getD 1 1).trans := by
  refine ⟨by with_unfolding_all rfl, by with_unfolding_all rfl, ?_,
    by with_unfolding_all rfl, by with_unfolding_all rfl⟩
  intro v
  show qrot ⟨-1, 0, 0, 0⟩ v = v
  simp only [qrot, qmul, qconj]
  cases v
  simp only [V3.mk.injEq]
  refine ⟨?_, ?_, ?_⟩ <;> ring

/-- The aggregate positional error of the claim (and spec §4.3): the sum
over all position goals of the Euclidean distance between the goal's
world-space target and the goal bone's current global position.  Written
from the spec's words, to compare with the error quantities the solvers
actually compute. -/
def specAggregateError (goals : List IkGoal) (sk : Skelly) (joints : List Iso) :
    ℚ :=
  goals.foldl
    (fun acc g =>
      match g.position with
      | some pos => acc + distQ pos ((fkGlobals sk joints).getD g.bone 1).trans
      | none => acc)
    0

def c2solver : FrikSolver := ⟨1, 0, [⟨1, some ⟨-7/25, 24/25, 0⟩, none⟩]⟩

def c2out : List Iso :=
  [⟨⟨3/5, 0, 0, 4/5⟩, ⟨0, 0, 0⟩⟩, ⟨⟨3/5, 0, 0, -4/5⟩, ⟨1, 0, 0⟩⟩]

/-- C2 (counterexample).  One FRIK step on the two-bone chain with goal
`(-7/25, 24/25, 0)` and `epsilon = 1` rotates the root onto the goal
exactly: the aggregate positional error at the END of the step is 0,
below epsilon, yet `solve_step` returns `Unsolved` — refuting the claimed
"returns Solved if and only if the aggregate error is below epsilon at
the end of that step". -/
theorem c2_counterexample :
    frikSolveStep c2solver chainSk chainJoints = some (StepResult.Unsolved, c2out)
    ∧ specAggregateError c2solver.goals chainSk c2out = 0
    ∧ specAggregateError c2solver.goals chainSk c2out < c2solver.epsilon
    ∧ StepResult.Unsolved ≠ StepResult.Solved := by
  refine ⟨by with_unfolding_all rfl, by with_unfolding_all rfl,
    by with_unfolding_all decide, by decide⟩

/-- C2 (amended).  What the solvers actually compare against epsilon:
FRIK returns `Solved` iff the aggregate positional error measured at the
START of the step (before any correction) is below epsilon — otherwise it
returns `Unsolved` even when the corrections bring the error below
epsilon by the end of the step; FABRIK decides its status from the error
it sums at the END of the step, but that error measures each goal against
the goal bone's posture-LOCAL joint translation, not its global
position.  (The rotor source's `StepResult`/`reduce` result type is not
under `src/`.) -/
theorem c2_amended_solved_iff :
    (∀ (s : FrikSolver) (sk : Skelly) (joints : List Iso) (r : StepResult)
        (p : List Iso),
        frikSolveStep s sk joints = some (r, p) →
        (r = StepResult.Solved ↔ frikStartError s.goals sk joints < s.epsilon))
    ∧ (∀ (s : FabrikSolver) (sk : Skelly) (joints : List Iso) (r : StepResultT)
        (p : List Iso),
        fabrikSolveStep s sk joints = some (r, p) →
        (r.status = Status.Solved ↔ r.error < s.epsilon)
        ∧ r.error = fabrikLocalEndError s.goals p) := by
  constructor
  · intro s sk joints r p h
    unfold frikSolveStep at h
    split at h
    · dsimp only at h
      rw [show frikStartError s.goals sk joints =
          (frikEnqueuePhase s.goals sk (fkGlobals sk joints)).2 from rfl]
      split at h
      next hlt =>
        obtain ⟨h1, h2⟩ := Prod.mk.injEq .. ▸ Option.some.inj h
        rw [← h1]
        exact ⟨fun _ => hlt, fun _ => rfl⟩
      next hge =>
        rcases hl : frikLoop sk (fkGlobals sk joints) sk.len
            (frikEnqueuePhase s.goals sk (fkGlobals sk joints)).1 joints with _ | j
        · rw [hl] at h
          exact absurd h (by simp)
        · rw [hl] at h
          simp only [Option.map_some'] at h
          obtain ⟨h1, h2⟩ := Prod.mk.injEq .. ▸ Option.some.inj h
          rw [← h1]
          exact ⟨fun hc => StepResult.noConfusion hc, fun hlt => absurd hlt hge⟩
    · exact absurd h (by simp)
  · intro s sk joints r p h
    unfold fabrikSolveStep at h
    split at h
    · dsimp only at h
      split at h
      · exact absurd h (by simp)
      next joints' heq =>
        obtain ⟨h1, h2⟩ := Prod.mk.injEq .. ▸ Option.some.inj h
        rw [← h1, ← h2]
        by_cases hlt : fabrikLocalEndError s.goals joints' < s.epsilon
        · rw [if_pos hlt]
          exact ⟨⟨fun _ => hlt, fun _ => rfl⟩, rfl⟩
        · rw [if_neg hlt]
          exact ⟨⟨fun hc => Status.noConfusion hc, fun hl => absurd hl hlt⟩, rfl⟩
    · exact absurd h (by simp)

theorem c2_witness :
    (StepResult.Unsolved = StepResult.Solved ↔
      frikStartError c2solver.goals chainSk chainJoints < c2solver.epsilon) :=
  c2_amended_solved_iff.1 c2solver chainSk chainJoints StepResult.Unsolved c2out
    (by with_unfolding_all rfl)

theorem rotorLoop_status (sk : Skelly) (eps : ℚ) (globals : List Iso) :
    ∀ (fuel : Nat) (q : List QItemP) (joints : List Iso) (total : StepResultT)
      (out : List Iso × StepResultT),
      total.status ≠ Status.Infeasible →
      rotorLoop sk eps globals fuel q joints total = some out →
      out.2.status ≠ Status.Infeasible := by
  intro fuel
  induction fuel with
  | zero =>
    intro q joints total out ht h
    unfold rotorLoop at h
    split at h
    · obtain rfl := Option.some.inj h
      exact ht
    · exact absurd h (by simp)
  | succ f ih =>
    intro q joints total out ht h
    unfold rotorLoop at h
    split at h
    · obtain rfl := Option.some.inj h
      exact ht
    · dsimp only at h
      split at h
      · exact ih _ _ _ _ ht h
      · split at h
        · exact ih _ _ _ _ ht h
        · split at h
          · refine ih _ _ _ _ ?_ h
            unfold StepResultT.reduce
            split <;> simp
          · split at h
            · exact ih _ _ _ _ ht h
            · exact ih _ _ _ _ ht h

/-- C8.  No solver's `solve_step` ever returns the `Infeasible` status:
every terminating call returns `Solved` or `Unsolved` (FRIK over the
`ik.rs` `StepResult` enum; FABRIK and rotor over the spec-modelled
`Status` of their result struct). -/
theorem c8_never_infeasible :
    (∀ (s : FrikSolver) (sk : Skelly) (joints : List Iso) (r : StepResult)
        (p : List Iso), frikSolveStep s sk joints = some (r, p) →
        r ≠ StepResult.Infeasible)
    ∧ (∀ (s : FabrikSolver) (sk : Skelly) (joints : List Iso) (r : StepResultT)
        (p : List Iso), fabrikSolveStep s sk joints = some (r, p) →
        r.status ≠ Status.Infeasible)
    ∧ (∀ (s : RotorSolver) (sk : Skelly) (joints : List Iso) (r : StepResultT)
        (p : List Iso), rotorSolveStep s sk joints = some (r, p) →
        r.status ≠ Status.Infeasible) := by
  refine ⟨?_, ?_, ?_⟩
  · intro s sk joints r p h
    unfold frikSolveStep at h
    split at h
    · dsimp only at h
      split at h
      · obtain ⟨h1, _⟩ := Prod.mk.injEq .. ▸ Option.some.inj h
        rw [← h1]
        exact fun hc => StepResult.noConfusion hc
      · rcases hl : frikLoop sk (fkGlobals sk joints) sk.len
            (frikEnqueuePhase s.goals sk (fkGlobals sk joints)).1 joints with _ | j
        · rw [hl] at h
          exact absurd h (by simp)
        · rw [hl] at h
          simp only [Option.map_some'] at h
          obtain ⟨h1, _⟩ := Prod.mk.injEq .. ▸ Option.some.inj h
          rw [← h1]
          exact fun hc => StepResult.noConfusion hc
    · exact absurd h (by simp)
  · intro s sk joints r p h
    unfold fabrikSolveStep at h
    split at h
    · dsimp only at h
      split at h
      · exact absurd h (by simp)
      next joints' heq =>
        obtain ⟨h1, _⟩ := Prod.mk.injEq .. ▸ Option.some.inj h
        rw [← h1]
        split <;> exact fun hc => Status.noConfusion hc
    · exact absurd h (by simp)
  · intro s sk joints r p h
    unfold rotorSolveStep at h
    split at h
    · dsimp only at h
      rcases hl : rotorLoop sk s.epsilon (fkGlobals sk joints) sk.len
          (rotorEnqueuePhase s.goals sk (fkGlobals sk joints)) joints
          ⟨0, Status.Solved⟩ with _ | out
      · rw [hl] at h
        exact absurd h (by simp)
      · rw [hl] at h
        simp only [Option.map_some'] at h
        obtain ⟨h1, _⟩ := Prod.mk.injEq .. ▸ Option.some.inj h
        rw [← h1]
        exact rotorLoop_status sk s.epsilon (fkGlobals sk joints) sk.len _ _ _ out
          (fun hc => Status.noConfusion hc) hl
    · exact absurd h (by simp)

theorem c8_witness :
    StepResult.Unsolved ≠ StepResult.Infeasible
    ∧ Status.Unsolved ≠ Status.Infeasible
    ∧ Status.Solved ≠ Status.Infeasible :=
  ⟨c8_never_infeasible.1 c2solver chainSk chainJoints StepResult.Unsolved c2out
      (by with_unfolding_all rfl),
   c8_never_infeasible.2.1 ⟨1/10, 0, [⟨1, some ⟨-1, 0, 0⟩, none⟩]⟩ chainSk
      chainJoints ⟨2, Status.Unsolved⟩
      [⟨⟨-1, 0, 0, 0⟩, ⟨0, 0, 0⟩⟩, ⟨⟨-1, 0, 0, 0⟩, ⟨1, 0, 0⟩⟩]
      (by with_unfolding_all rfl),
   c8_never_infeasible.2.2 ⟨3/5, 0, [⟨1, some ⟨527/625, 336/625, 0⟩, none⟩]⟩
      chainSk chainJoints ⟨0, Status.Solved⟩
      [⟨⟨24/25, 0, 0, 7/25⟩, ⟨0, 0, 0⟩⟩, ⟨1, ⟨1, 0, 0⟩⟩]
      (by with_unfolding_all rfl)⟩

theorem any_enqueP (q : List QItemP) (b : Nat) (e t : V3)
    (pred : QItemP → Bool) (h : q.any pred = true) :
    (enqueP q b e t).any pred = true := by
  induction q with
  | nil => simp at h
  | cons x xs ih =>
    unfold enqueP
    by_cases hle : x.bone ≤ b
    · rw [if_pos hle]
      simp only [List.any_cons] at h ⊢
      rw [h]
      simp
    · rw [if_neg hle]
      simp only [List.any_cons] at h ⊢
      rcases Bool.or_eq_true_iff.mp h with hx | hxs
      · rw [hx]; simp
      · rw [ih hxs]; simp

theorem enqueP_any_self (q : List QItemP) (b : Nat) (e t : V3) :
    (enqueP q b e t).any (fun it => it.bone == b) = true := by
  induction q with
  | nil => simp [enqueP]
  | cons x xs ih =>
    unfold enqueP
    by_cases hle : x.bone ≤ b
    · rw [if_pos hle]
      simp
    · rw [if_neg hle]
      simp only [List.any_cons]
      rw [ih]
      simp

theorem rotorEnqueue_any_aux (sk : Skelly) (globals : List Iso) (g : IkGoal)
    (pos : V3) (par : Nat) (hp : g.position = some pos)
    (hpar : sk.getParent g.bone = some par) :
    ∀ (goals : List IkGoal) (q : List QItemP),
      (g ∈ goals ∨ q.any (fun it => it.bone == par) = true) →
      ((goals.foldl
        (fun q g =>
          match g.position with
          | none => q
          | some pos =>
            let tip := (globals.getD g.bone 1).trans
            match sk.getParent g.bone with
            | some par => enqueP q par tip pos
            | none => q)
        q).any (fun it => it.bone == par)) = true := by
  intro goals
  induction goals with
  | nil =>
    intro q h
    rcases h with h | h
    · simp at h
    · exact h
  | cons g' gs ih =>
    intro q h
    rw [List.foldl_cons]
    rcases h with h | h
    · rcases List.mem_cons.mp h with rfl | hgs
      · refine ih _ (Or.inr ?_)
        rw [hp, hpar]
        exact enqueP_any_self q par _ pos
      · exact ih _ (Or.inl hgs)
    · refine ih _ (Or.inr ?_)
      rcases hgp : g'.position with _ | pos'
      · exact h
      · rcases hgpar : sk.getParent g'.bone with _ | par'
        · exact h
        · exact any_enqueP q par' _ pos' _ h

/-- C4 (amended).  `RotorSolver::solve_step` performs no up-front
total-error early exit: the per-goal error check is commented out, so
every position goal whose bone has a parent is enqueued and processed
unconditionally, and joints can be rotated even when the total positional
error is already below epsilon at the start of the step. -/
theorem c4_amended_no_early_exit :
    ∀ (goals : List IkGoal) (sk : Skelly) (globals : List Iso) (g : IkGoal)
      (pos : V3) (par : Nat),
      g ∈ goals → g.position = some pos → sk.getParent g.bone = some par →
      (rotorEnqueuePhase goals sk globals).any (fun it => it.bone == par) = true := by
  intro goals sk globals g pos par hm hp hpar
  exact rotorEnqueue_any_aux sk globals g pos par hp hpar goals [] (Or.inl hm)

def c4solver : RotorSolver := ⟨3/5, 0, [⟨1, some ⟨527/625, 336/625, 0⟩, none⟩]⟩

def c4out : List Iso := [⟨⟨24/25, 0, 0, 7/25⟩, ⟨0, 0, 0⟩⟩, ⟨1, ⟨1, 0, 0⟩⟩]

/-- C4 (counterexample).  On the two-bone chain with goal
`(527/625, 336/625, 0)` and `epsilon = 3/5`, the total positional error
at the start of the rotor step is `14/25 < 3/5`, yet `solve_step` rotates
the root joint (its rotation changes from the identity to
`(24/25, 0, 0, 7/25)`) instead of returning immediately with the posture
untouched — refuting the claimed early exit. -/
theorem c4_counterexample :
    specAggregateError c4solver.goals chainSk chainJoints = 14/25
    ∧ specAggregateError c4solver.goals chainSk chainJoints < c4solver.epsilon
    ∧ rotorSolveStep c4solver chainSk chainJoints
        = some (⟨0, Status.Solved⟩, c4out)
    ∧ c4out.getD 0 1 ≠ chainJoints.getD 0 1 := by
  refine ⟨by with_unfolding_all rfl, by with_unfolding_all decide,
    by with_unfolding_all rfl, by with_unfolding_all decide⟩

theorem c4_witness :
    (rotorEnqueuePhase c4solver.goals chainSk
      (fkGlobals chainSk chainJoints)).any (fun it => it.bone == 0) = true :=
  c4_amended_no_early_exit c4solver.goals chainSk (fkGlobals chainSk chainJoints)
    ⟨1, some ⟨527/625, 336/625, 0⟩, none⟩ ⟨527/625, 336/625, 0⟩ 0
    (List.mem_singleton.mpr rfl) rfl rfl

theorem v3_add_zero (a : V3) : a + 0 = a := by
  ext <;> simp

/-- Componentwise sum of a list of vectors. -/
def vsum : List V3 → V3
  | [] => 0
  | v :: L => v + vsum L

theorem mem_enqueP (q : List QItemP) (b : Nat) (e t : V3) (it : QItemP) :
    it ∈ enqueP q b e t ↔ it = ⟨b, e, t⟩ ∨ it ∈ q := by
  induction q with
  | nil => simp [enqueP]
  | cons x xs ih =>
    unfold enqueP
    by_cases hle : x.bone ≤ b
    · rw [if_pos hle]
      simp
    · rw [if_neg hle]
      simp only [List.mem_cons, ih]
      tauto

theorem enqueP_sorted (q : List QItemP) (b : Nat) (e t : V3)
    (hs : SortedQ q) : SortedQ (enqueP q b e t) := by
  induction q with
  | nil => simp [enqueP, SortedQ]
  | cons x xs ih =>
    unfold enqueP
    rcases List.pairwise_cons.mp hs with ⟨hx, hxs⟩
    by_cases hle : x.bone ≤ b
    · rw [if_pos hle]
      refine List.pairwise_cons.mpr ⟨?_, hs⟩
      intro y hy
      rcases List.mem_cons.mp hy with rfl | hyx
      · exact hle
      · exact le_trans (hx y hyx) hle
    · rw [if_neg hle]
      refine List.pairwise_cons.mpr ⟨?_, ih hxs⟩
      intro y hy
      rcases (mem_enqueP xs b e t y).mp hy with rfl | hyx
      · exact Nat.le_of_lt (Nat.lt_of_not_le hle)
      · exact hx y hyx

theorem dequeAux_spec (b : Nat) : ∀ (xs : List QItemP) (esum tsum : V3) (count : ℚ),
    dequeAux b esum tsum count xs =
      (esum + vsum ((xs.takeWhile (fun y => y.bone == b)).map (fun it => it.effector)),
       tsum + vsum ((xs.takeWhile (fun y => y.bone == b)).map (fun it => it.target)),
       count + (((xs.takeWhile (fun y => y.bone == b)).length : Nat) : ℚ),
       xs.dropWhile (fun y => y.bone == b)) := by
  intro xs
  induction xs with
  | nil =>
    intro esum tsum count
    simp [dequeAux, vsum, v3_add_zero]
  | cons y ys ih =>
    intro esum tsum count
    unfold dequeAux
    by_cases hy : y.bone = b
    · rw [if_pos hy, ih]
      have ht : (y :: ys).takeWhile (fun z => z.bone == b) =
          y :: ys.takeWhile (fun z => z.bone == b) := by
        rw [List.takeWhile_cons]
        simp [hy]
      have hd : (y :: ys).dropWhile (fun z => z.bone == b) =
          ys.dropWhile (fun z => z.bone == b) := by
        rw [List.dropWhile_cons]
        simp [hy]
      rw [ht, hd]
      refine congrArg₂ Prod.mk ?_ (congrArg₂ Prod.mk ?_ (congrArg₂ Prod.mk ?_ rfl))
      · rw [List.map_cons]
        show _ = esum + (y.effector + _)
        rw [← v3_add_assoc]
      · rw [List.map_cons]
        show _ = tsum + (y.target + _)
        rw [← v3_add_assoc]
      · rw [List.length_cons]
        push_cast
        ring
    · rw [if_neg hy]
      have ht : (y :: ys).takeWhile (fun z => z.bone == b) = [] := by
        rw [List.takeWhile_cons]
        simp [hy]
      have hd : (y :: ys).dropWhile (fun z => z.bone == b) = y :: ys := by
        rw [List.dropWhile_cons]
        simp [hy]
      rw [ht, hd]
      simp [vsum, v3_add_zero]

theorem filter_eq_takeWhile_sorted (b : Nat) : ∀ (xs : List QItemP),
    xs.Pairwise (fun a c => c.bone ≤ a.bone) → (∀ it ∈ xs, it.bone ≤ b) →
    xs.filter (fun y => y.bone == b) = xs.takeWhile (fun y => y.bone == b) := by
  intro xs
  induction xs with
  | nil => intro _ _; rfl
  | cons y ys ih =>
    intro hs hb
    rcases List.pairwise_cons.mp hs with ⟨hy, hys⟩
    by_cases hyb : y.bone = b
    · rw [List.filter_cons, List.takeWhile_cons]
      simp only [hyb, beq_self_eq_true, if_true]
      rw [ih hys (fun it hit => hb it (List.mem_cons_of_mem y hit))]
    · have hfalse : (y.bone == b) = false := by simp [hyb]
      rw [List.filter_cons, List.takeWhile_cons, hfalse]
      simp only [Bool.false_eq_true, if_false]
      rw [List.filter_eq_nil_iff]
      intro z hz
      have hzle : z.bone ≤ y.bone := hy z hz
      have hylt : y.bone < b :=
        Nat.lt_of_le_of_ne (hb y (List.mem_cons_self y ys)) hyb
      simp only [beq_iff_eq]
      omega

theorem dropWhile_lt_sorted (b : Nat) : ∀ (xs : List QItemP),
    xs.Pairwise (fun a c => c.bone ≤ a.bone) → (∀ it ∈ xs, it.bone ≤ b) →
    ∀ it ∈ xs.dropWhile (fun y => y.bone == b), it.bone < b := by
  intro xs
  induction xs with
  | nil => intro _ _ it hit; simp at hit
  | cons y ys ih =>
    intro hs hb
    rcases List.pairwise_cons.mp hs with ⟨hy, hys⟩
    by_cases hyb : y.bone = b
    · have htrue : (y.bone == b) = true := by simp [hyb]
      rw [List.dropWhile_cons, htrue]
      simp only [if_true]
      exact ih hys (fun it hit => hb it (List.mem_cons_of_mem y hit))
    · have hylt : y.bone < b :=
        Nat.lt_of_le_of_ne (hb y (List.mem_cons_self y ys)) hyb
      have hfalse : (y.bone == b) = false := by simp [hyb]
      rw [List.dropWhile_cons, hfalse]
      simp only [Bool.false_eq_true, if_false]
      intro it hit
      rcases List.mem_cons.mp hit with rfl | hmem
      · exact hylt
      · exact Nat.lt_of_le_of_lt (hy it hmem) hylt

/-- Full characterization of one FRIK/rotor `deque` on a sorted queue:
the popped bone index is the maximum in the queue, the returned payloads
are the arithmetic means of ALL queued payloads for that bone, and the
remaining queue is sorted with every bone index strictly smaller. -/
theorem dequeP_spec (q : List QItemP) (b : Nat) (e t : V3) (rest : List QItemP)
    (hs : SortedQ q) (hd : dequeP q = some (b, e, t, rest)) :
    (∀ it ∈ q, it.bone ≤ b)
    ∧ e = (((q.filter (fun y => y.bone == b)).length : Nat) : ℚ)⁻¹ •
        vsum ((q.filter (fun y => y.bone == b)).map (fun it => it.effector))
    ∧ t = (((q.filter (fun y => y.bone == b)).length : Nat) : ℚ)⁻¹ •
        vsum ((q.filter (fun y => y.bone == b)).map (fun it => it.target))
    ∧ (∀ it ∈ rest, it.bone < b)
    ∧ SortedQ rest := by
  cases q with
  | nil => exact absurd hd (by simp [dequeP])
  | cons x xs =>
    rcases List.pairwise_cons.mp hs with ⟨hx, hxs⟩
    unfold dequeP at hd
    dsimp only at hd
    rw [dequeAux_spec] at hd
    dsimp only at hd
    have hinj := Option.some.inj hd
    rw [Prod.mk.injEq, Prod.mk.injEq, Prod.mk.injEq] at hinj
    obtain ⟨hb, he, htg, hrest⟩ := hinj
    subst hb
    have hxsle : ∀ it ∈ xs, it.bone ≤ x.bone := hx
    have hfilter : (x :: xs).filter (fun y => y.bone == x.bone) =
        x :: xs.takeWhile (fun y => y.bone == x.bone) := by
      rw [List.filter_cons]
      simp only [beq_self_eq_true, if_true]
      rw [filter_eq_takeWhile_sorted x.bone xs hxs hxsle]
    have hc : (((xs.takeWhile (fun y => y.bone == x.bone)).length + 1 : Nat) : ℚ) =
        1 + (((xs.takeWhile (fun y => y.bone == x.bone)).length : Nat) : ℚ) := by
      push_cast
      ring
    refine ⟨?_, ?_, ?_, ?_, ?_⟩
    · intro it hit
      rcases List.mem_cons.mp hit with rfl | hmem
      · exact le_refl _
      · exact hx it hmem
    · rw [hfilter, List.map_cons, List.length_cons, ← he, hc]
      rfl
    · rw [hfilter, List.map_cons, List.length_cons, ← htg, hc]
      rfl
    · rw [← hrest]
      exact dropWhile_lt_sorted x.bone xs hxs hxsle
    · rw [← hrest]
      exact List.Pairwise.sublist (List.dropWhile_sublist _) hxs

/-- Abstract upward traversal over the merge queue, as all three solvers
drive it: repeatedly `deque`; after processing a dequeued bone `b`, the
solver may `enque` any number of new entries, each at a bone index
strictly below `b` (in the sources, at the parent of a processed bone,
which is smaller by the topological invariant).  The trace records the
dequeued bone indices in order. -/
inductive MergeRun : List QItemP → List Nat → Prop
  | done (q : List QItemP) : dequeP q = none → MergeRun q []
  | step (q : List QItemP) (b : Nat) (e t : V3) (rest : List QItemP)
      (adds : List QItemP) (tr : List Nat) :
      dequeP q = some (b, e, t, rest) →
      (∀ a ∈ adds, a.bone < b) →
      MergeRun (adds.foldl (fun acc a => enqueP acc a.bone a.effector a.target) rest) tr →
      MergeRun q (b :: tr)

theorem foldl_enqueP_sorted : ∀ (adds acc : List QItemP), SortedQ acc →
    SortedQ (adds.foldl (fun acc a => enqueP acc a.bone a.effector a.target) acc) := by
  intro adds
  induction adds with
  | nil => intro acc h; exact h
  | cons a as ih =>
    intro acc h
    rw [List.foldl_cons]
    exact ih _ (enqueP_sorted acc a.bone a.effector a.target h)

theorem foldl_enqueP_bound : ∀ (adds acc : List QItemP) (B : Nat),
    (∀ a ∈ adds, a.bone < B) → (∀ it ∈ acc, it.bone < B) →
    ∀ it ∈ adds.foldl (fun acc a => enqueP acc a.bone a.effector a.target) acc,
      it.bone < B := by
  intro adds
  induction adds with
  | nil => intro acc B _ hacc it hit; exact hacc it hit
  | cons a as ih =>
    intro acc B hadds hacc it hit
    rw [List.foldl_cons] at hit
    refine ih _ B (fun x hx => hadds x (List.mem_cons_of_mem a hx)) ?_ it hit
    intro y hy
    rcases (mem_enqueP acc a.bone a.effector a.target y).mp hy with rfl | hmem
    · exact hadds a (List.mem_cons_self a as)
    · exact hacc y hmem

theorem dequeP_head (q : List QItemP) (b : Nat) (e t : V3) (rest : List QItemP)
    (hd : dequeP q = some (b, e, t, rest)) : ∃ it ∈ q, it.bone = b := by
  cases q with
  | nil => exact absurd hd (by simp [dequeP])
  | cons x xs =>
    unfold dequeP at hd
    dsimp only at hd
    have hinj := Option.some.inj hd
    rw [Prod.mk.injEq] at hinj
    exact ⟨x, List.mem_cons_self x xs, hinj.1⟩

theorem mergeRun_strict : ∀ (q : List QItemP) (tr : List Nat),
    MergeRun q tr → SortedQ q →
    tr.Pairwise (fun a c => c < a) ∧ (∀ x ∈ tr, ∃ it ∈ q, x ≤ it.bone) := by
  intro q tr hr
  induction hr with
  | done q hq => intro _; exact ⟨List.Pairwise.nil, by simp⟩
  | step q b e t rest adds tr hdq hadds hrec ih =>
    intro hs
    obtain ⟨hmax, _, _, hlt, hsorted⟩ := dequeP_spec q b e t rest hs hdq
    have hbound : ∀ it ∈ adds.foldl
        (fun acc a => enqueP acc a.bone a.effector a.target) rest, it.bone < b :=
      foldl_enqueP_bound adds rest b hadds hlt
    obtain ⟨hpw, hex⟩ := ih (foldl_enqueP_sorted adds rest hsorted)
    obtain ⟨h0, hh0, hb0⟩ := dequeP_head q b e t rest hdq
    constructor
    · refine List.pairwise_cons.mpr ⟨?_, hpw⟩
      intro y hy
      obtain ⟨it, hit, hle⟩ := hex y hy
      exact Nat.lt_of_le_of_lt hle (hbound it hit)
    · intro x hx
      rcases List.mem_cons.mp hx with rfl | hmem
      · exact ⟨h0, hh0, le_of_eq hb0.symm⟩
      · obtain ⟨it, hit, hle⟩ := hex x hmem
        have hlt' : it.bone < b := hbound it hit
        exact ⟨h0, hh0, by omega⟩

/-- C3.  Merge-queue discipline: on a sorted queue, `enque` keeps it
sorted; `deque` yields the highest bone index currently in the queue with
the arithmetic mean of all queued payloads for that bone, leaving a
sorted queue whose bone indices are all strictly smaller (so each bone is
dequeued at most once per traversal); and along any upward traversal that
enqueues only below the bone just dequeued, the sequence of dequeued bone
indices is strictly decreasing (hence without repeats). -/
theorem c3_merge_queue_discipline :
    (∀ (q : List QItemP) (b : Nat) (e t : V3), SortedQ q →
        SortedQ (enqueP q b e t))
    ∧ (∀ (q : List QItemP) (b : Nat) (e t : V3) (rest : List QItemP),
        SortedQ q → dequeP q = some (b, e, t, rest) →
        (∀ it ∈ q, it.bone ≤ b)
        ∧ e = (((q.filter (fun y => y.bone == b)).length : Nat) : ℚ)⁻¹ •
            vsum ((q.filter (fun y => y.bone == b)).map (fun it => it.effector))
        ∧ t = (((q.filter (fun y => y.bone == b)).length : Nat) : ℚ)⁻¹ •
            vsum ((q.filter (fun y => y.bone == b)).map (fun it => it.target))
        ∧ (∀ it ∈ rest, it.bone < b)
        ∧ SortedQ rest)
    ∧ (∀ (q : List QItemP) (tr : List Nat), MergeRun q tr → SortedQ q →
        tr.Pairwise (fun a c => c < a) ∧ tr.Nodup) := by
  refine ⟨enqueP_sorted, dequeP_spec, ?_⟩
  intro q tr hr hs
  obtain ⟨hpw, _⟩ := mergeRun_strict q tr hr hs
  exact ⟨hpw, List.Pairwise.imp (fun h => (ne_of_gt h)) hpw⟩

def c3q : List QItemP :=
  [⟨5, ⟨2, 0, 0⟩, ⟨0, 2, 0⟩⟩, ⟨5, ⟨0, 0, 0⟩, ⟨0, 0, 0⟩⟩, ⟨2, ⟨3, 3, 3⟩, ⟨4, 4, 4⟩⟩]

theorem c3_witness :
    (⟨1, 0, 0⟩ : V3) = (((c3q.filter (fun y => y.bone == 5)).length : Nat) : ℚ)⁻¹ •
      vsum ((c3q.filter (fun y => y.bone == 5)).map (fun it => it.effector)) :=
  (c3_merge_queue_discipline.2.1 c3q 5 ⟨1, 0, 0⟩ ⟨0, 1, 0⟩
    [⟨2, ⟨3, 3, 3⟩, ⟨4, 4, 4⟩⟩] (by decide) (by with_unfolding_all rfl)).2.1

theorem qmul_sandwich_pair (b c r : Quat) (h : qnormSq r = 1) :
    (b * r) * (qconj r * c) = b * c := by
  have hx := qmul_sandwich 1 b c r h
  rw [one_qmul, one_qmul] at hx
  exact hx

theorem pathGo_congr (E1 E2 : List (Iso × Option Nat)) :
    ∀ (f i : Nat), (∀ j, j ≤ i → E1.getD j default = E2.getD j default) →
    pathGo E1 f i = pathGo E2 f i := by
  intro f
  induction f with
  | zero =>
    intro i h
    show (E1.getD i default).1 = (E2.getD i default).1
    rw [h i (le_refl i)]
  | succ f ih =>
    intro i h
    rw [pathGo_succ, pathGo_succ, h i (le_refl i)]
    rcases hp : (E2.getD i default).2 with _ | p
    · rfl
    · by_cases hlt : p < i
      · simp only [hlt, if_true]
        rw [ih p (fun j hj => h j (le_trans hj (Nat.le_of_lt hlt)))]
      · simp only [hlt, if_false]

theorem mem_drop_range (n p j : Nat) :
    j ∈ (List.range n).drop p ↔ p ≤ j ∧ j < n := by
  by_cases hpn : p ≤ n
  · obtain ⟨q, rfl⟩ : ∃ q, n = p + q := ⟨n - p, by omega⟩
    rw [List.range_add]
    have hlen : (List.range p).length = p := List.length_range p
    rw [List.drop_left' hlen]
    simp only [List.mem_map, List.mem_range]
    constructor
    · rintro ⟨k, hk, rfl⟩
      omega
    · intro ⟨h1, h2⟩
      exact ⟨j - p, by omega, by omega⟩
  · rw [List.drop_eq_nil_of_le (by rw [List.length_range]; omega)]
    simp
    omega

theorem mem_iterChildren (s : Skelly) (p j : Nat) :
    j ∈ s.iterChildren p ↔
      p ≤ j ∧ j < s.len ∧ (s.bones.getD j default).parent = some p := by
  unfold Skelly.iterChildren
  rw [List.mem_filter, mem_drop_range]
  constructor
  · intro ⟨⟨h1, h2⟩, h3⟩
    exact ⟨h1, h2, of_decide_eq_true h3⟩
  · intro ⟨h1, h2, h3⟩
    exact ⟨⟨h1, h2⟩, decide_eq_true h3⟩

theorem iterChildren_pairwise (s : Skelly) (p : Nat) :
    (s.iterChildren p).Pairwise (fun a b => a ≠ b) := by
  unfold Skelly.iterChildren
  refine List.Pairwise.sublist (List.filter_sublist _) ?_
  refine List.Pairwise.sublist (List.drop_sublist _ _) ?_
  exact List.Pairwise.imp Nat.ne_of_lt (List.pairwise_lt_range _)

theorem foldSet_length : ∀ (L : List Nat) (js : List Iso) (K : Quat),
    (L.foldl (fun js i => setOrientation js i (K * getOrientation js i)) js).length
      = js.length := by
  intro L
  induction L with
  | nil => intro js K; rfl
  | cons a as ih =>
    intro js K
    rw [List.foldl_cons, ih]
    unfold setOrientation
    exact List.length_set js a _

theorem foldSet_getD_not_mem : ∀ (L : List Nat) (js : List Iso) (K : Quat) (c : Nat),
    c ∉ L →
    (L.foldl (fun js i => setOrientation js i (K * getOrientation js i)) js).getD c 1
      = js.getD c 1 := by
  intro L
  induction L with
  | nil => intro js K c _; rfl
  | cons a as ih =>
    intro js K c hc
    rw [List.foldl_cons, ih _ K c (fun hm => hc (List.mem_cons_of_mem a hm))]
    exact getD_set_ne js a c _ 1 (fun hac => hc (hac ▸ List.mem_cons_self a as))

theorem foldSet_getD_mem : ∀ (L : List Nat) (js : List Iso) (K : Quat) (c : Nat),
    L.Pairwise (fun a b => a ≠ b) → c ∈ L → c < js.length →
    (L.foldl (fun js i => setOrientation js i (K * getOrientation js i)) js).getD c 1
      = ⟨K * (js.getD c 1).rot, (js.getD c 1).trans⟩ := by
  intro L
  induction L with
  | nil => intro js K c _ hc _; simp at hc
  | cons a as ih =>
    intro js K c hpw hc hlen
    rcases List.pairwise_cons.mp hpw with ⟨ha, has⟩
    rw [List.foldl_cons]
    rcases List.mem_cons.mp hc with rfl | hmem
    · have hnotas : c ∉ as := fun hm => (ha c hm) rfl
      rw [foldSet_getD_not_mem as _ K c hnotas]
      unfold setOrientation getOrientation
      exact getD_set_self js c _ 1 hlen
    · have hac : a ≠ c := ha c hmem
      have hset : (setOrientation js a (K * getOrientation js a)).getD c 1
          = js.getD c 1 := getD_set_ne js a c _ 1 hac
      have hlen' : c < (setOrientation js a (K * getOrientation js a)).length := by
        unfold setOrientation
        rw [List.length_set]
        exact hlen
      rw [ih _ K c has hmem hlen', hset]

/-- C6.  FRIK sibling compensation: when `solve_step` processes a merged
entry at bone `B` — appending the computed shortest-arc rotation to `B`
and prepending its inverse to the orientation of `B`'s children — the
global orientation (rotation component of the FK transform) of every
child of `B` is unchanged.  The computed rotation is a `UnitQuaternion`
in the source; its unit norm is the hypothesis `hunit`. -/
theorem c6_sibling_compensation (sk : Skelly) (joints : List Iso) (global : Iso)
    (bone c : Nat) (effector target : V3)
    (hwf : skellyWF sk = true) (hlen : joints.length = sk.len)
    (hbone : bone < sk.len) (hc : c < sk.len)
    (hparent : (sk.bones.getD c default).parent = some bone)
    (hunit : qnormSq (frikRequiredRotation global effector target) = 1) :
    (pathIso (postureEntries sk
        ((frikProcess sk global joints bone effector target).1)) c).rot
      = (pathIso (postureEntries sk joints) c).rot := by
  rw [show (frikProcess sk global joints bone effector target).1 =
      (sk.iterChildren bone).foldl
        (fun js c => setOrientation js c
          (qconj (frikRequiredRotation global effector target) * getOrientation js c))
        (appendRotation joints bone (frikRequiredRotation global effector target))
      from rfl]
  revert hunit
  generalize frikRequiredRotation global effector target = r
  intro hunit
  have hwf' := (skellyWF_spec sk).mp hwf
  have hBc : bone < c := hwf' c hc bone hparent
  have hlen1 : (appendRotation joints bone r).length = joints.length := by
    unfold appendRotation
    exact List.length_set joints bone _
  have hlen2 : ((sk.iterChildren bone).foldl
      (fun js c => setOrientation js c (qconj r * getOrientation js c))
      (appendRotation joints bone r)).length = joints.length := by
    rw [foldSet_length, hlen1]
  have hcchild : c ∈ sk.iterChildren bone :=
    (mem_iterChildren sk bone c).mpr ⟨Nat.le_of_lt hBc, hc, hparent⟩
  have hbone_not : bone ∉ sk.iterChildren bone := by
    intro hm
    obtain ⟨_, _, hp⟩ := (mem_iterChildren sk bone bone).mp hm
    exact absurd (hwf' bone hbone bone hp) (lt_irrefl bone)
  have hgc : ((sk.iterChildren bone).foldl
      (fun js c => setOrientation js c (qconj r * getOrientation js c))
      (appendRotation joints bone r)).getD c 1
      = ⟨qconj r * (joints.getD c 1).rot, (joints.getD c 1).trans⟩ := by
    have h1 : (appendRotation joints bone r).getD c 1 = joints.getD c 1 := by
      unfold appendRotation
      exact getD_set_ne joints bone c _ 1 (Nat.ne_of_lt hBc)
    rw [foldSet_getD_mem (sk.iterChildren bone) _ (qconj r) c
      (iterChildren_pairwise sk bone) hcchild (by rw [hlen1, hlen]; exact hc), h1]
  have hgB : ((sk.iterChildren bone).foldl
      (fun js c => setOrientation js c (qconj r * getOrientation js c))
      (appendRotation joints bone r)).getD bone 1
      = ⟨(joints.getD bone 1).rot * r, (joints.getD bone 1).trans⟩ := by
    rw [foldSet_getD_not_mem _ _ (qconj r) bone hbone_not]
    unfold appendRotation
    exact getD_set_self joints bone _ 1 (by rw [hlen]; exact hbone)
  have hgj : ∀ j, j < bone → ((sk.iterChildren bone).foldl
      (fun js c => setOrientation js c (qconj r * getOrientation js c))
      (appendRotation joints bone r)).getD j 1 = joints.getD j 1 := by
    intro j hj
    have hnot : j ∉ sk.iterChildren bone := by
      intro hm
      exact absurd ((mem_iterChildren sk bone j).mp hm).1 (by omega)
    rw [foldSet_getD_not_mem _ _ (qconj r) j hnot]
    unfold appendRotation
    exact getD_set_ne joints bone j _ 1 (by omega)
  have hE'c : (postureEntries sk ((sk.iterChildren bone).foldl
      (fun js c => setOrientation js c (qconj r * getOrientation js c))
      (appendRotation joints bone r))).getD c default
      = (⟨qconj r * (joints.getD c 1).rot, (joints.getD c 1).trans⟩, some bone) := by
    rw [postureEntries_getD sk _ c (by rw [hlen2, hlen]; exact hc) hc, hparent, hgc]
  have hEc : (postureEntries sk joints).getD c default
      = (joints.getD c 1, some bone) := by
    rw [postureEntries_getD sk joints c (by rw [hlen]; exact hc) hc, hparent]
  have hP'c := pathIso_parent _ c bone (by rw [hE'c]) hBc
  have hPc := pathIso_parent (postureEntries sk joints) c bone (by rw [hEc]) hBc
  rw [hP'c, hPc, hE'c, hEc]
  rcases hpB : (sk.bones.getD bone default).parent with _ | pB
  · have hE'B : (postureEntries sk ((sk.iterChildren bone).foldl
        (fun js c => setOrientation js c (qconj r * getOrientation js c))
        (appendRotation joints bone r))).getD bone default
        = (⟨(joints.getD bone 1).rot * r, (joints.getD bone 1).trans⟩, none) := by
      rw [postureEntries_getD sk _ bone (by rw [hlen2, hlen]; exact hbone) hbone,
        hpB, hgB]
    have hEB : (postureEntries sk joints).getD bone default
        = (joints.getD bone 1, none) := by
      rw [postureEntries_getD sk joints bone (by rw [hlen]; exact hbone) hbone, hpB]
    rw [pathIso_root _ bone (by rw [hE'B]),
      pathIso_root (postureEntries sk joints) bone (by rw [hEB]), hE'B, hEB]
    rw [isoMul_rot, isoMul_rot]
    dsimp only
    exact qmul_sandwich_pair _ _ r hunit
  · have hpBlt : pB < bone := hwf' bone hbone pB hpB
    have hE'B : (postureEntries sk ((sk.iterChildren bone).foldl
        (fun js c => setOrientation js c (qconj r * getOrientation js c))
        (appendRotation joints bone r))).getD bone default
        = (⟨(joints.getD bone 1).rot * r, (joints.getD bone 1).trans⟩, some pB) := by
      rw [postureEntries_getD sk _ bone (by rw [hlen2, hlen]; exact hbone) hbone,
        hpB, hgB]
    have hEB : (postureEntries sk joints).getD bone default
        = (joints.getD bone 1, some pB) := by
      rw [postureEntries_getD sk joints bone (by rw [hlen]; exact hbone) hbone, hpB]
    rw [pathIso_parent _ bone pB (by rw [hE'B]) hpBlt,
      pathIso_parent (postureEntries sk joints) bone pB (by rw [hEB]) hpBlt,
      hE'B, hEB]
    have hagree : pathIso (postureEntries sk ((sk.iterChildren bone).foldl
        (fun js c => setOrientation js c (qconj r * getOrientation js c))
        (appendRotation joints bone r))) pB
        = pathIso (postureEntries sk joints) pB := by
      apply pathGo_congr
      intro j hj
      have hjlt : j < bone := by omega
      have hjlen : j < sk.len := by omega
      rw [postureEntries_getD sk _ j (by rw [hlen2, hlen]; exact hjlen) hjlen,
        postureEntries_getD sk joints j (by rw [hlen]; exact hjlen) hjlen,
        hgj j hjlt]
    rw [hagree]
    rw [isoMul_rot, isoMul_rot, isoMul_rot, isoMul_rot]
    dsimp only
    exact qmul_sandwich _ _ _ r hunit

theorem c6_witness :
    (pathIso (postureEntries chainSk
        ((frikProcess chainSk 1 chainJoints 0 ⟨1, 0, 0⟩ ⟨-7/25, 24/25, 0⟩).1)) 1).rot
      = (pathIso (postureEntries chainSk chainJoints) 1).rot :=
  c6_sibling_compensation chainSk chainJoints 1 0 1 ⟨1, 0, 0⟩ ⟨-7/25, 24/25, 0⟩
    (by decide) (by decide) (by decide) (by decide) rfl
    (by with_unfolding_all rfl)
